import Mathlib

/-!
Verification of the proximal Bentley–Ottmann sweep-line repository
(`event_tree.py`, `status_tree.py`, `sweep_line.py`).

The Python modules are shallowly embedded. Coordinates (Python floats) are
modelled as exact rationals; every comparison the source performs after a
division by a (positive) Euclidean norm is rendered by the equivalent
division-free comparison of squares, so all definitions stay executable.
-/

/- The library marks the rational-number operations `@[irreducible]`, which
also stops `decide` from evaluating concrete rational arithmetic; restore
the definitional behaviour for this development. -/
set_option allowUnsafeReducibility true in
attribute [semireducible] Rat.add Rat.mul Rat.sub Rat.inv Rat.ofScientific

namespace SweepLine

/-- `TOL_ACC = 1e-9` from `event_tree.py` (shared by all three modules). -/
def TOL : ℚ := 1 / 1000000000

/-- Event roles: the strings `'left'`, `'right'`, `'internal'` of the source. -/
inductive Role where
  | left : Role
  | right : Role
  | internal : Role
deriving DecidableEq, Repr

/-- A planar point; the source passes points as two-element lists `[x, y]`. -/
structure Pt where
  x : ℚ
  y : ℚ
deriving DecidableEq, Repr

namespace Pt

/-- Python list comparison `[x1,y1] < [x2,y2]` is lexicographic. -/
def lt (p q : Pt) : Prop := p.x < q.x ∨ (p.x = q.x ∧ p.y < q.y)

instance : LT Pt := ⟨Pt.lt⟩

theorem lt_def (p q : Pt) : p < q ↔ p.x < q.x ∨ (p.x = q.x ∧ p.y < q.y) := Iff.rfl

instance decLt (p q : Pt) : Decidable (p < q) :=
  inferInstanceAs (Decidable (p.x < q.x ∨ (p.x = q.x ∧ p.y < q.y)))

def le (p q : Pt) : Prop := p < q ∨ p = q

instance : LE Pt := ⟨Pt.le⟩

theorem le_def (p q : Pt) : p ≤ q ↔ p < q ∨ p = q := Iff.rfl

instance decLe (p q : Pt) : Decidable (p ≤ q) :=
  inferInstanceAs (Decidable (p < q ∨ p = q))

theorem lt_irrefl (p : Pt) : ¬ p < p := by
  rw [lt_def]; rintro (h | ⟨-, h⟩) <;> exact absurd h (by simp)

theorem lt_trans {p q r : Pt} : p < q → q < r → p < r := by
  rw [lt_def, lt_def, lt_def]
  rintro (h1 | ⟨e1, h1⟩) (h2 | ⟨e2, h2⟩)
  · exact Or.inl (h1.trans h2)
  · exact Or.inl (e2 ▸ h1)
  · exact Or.inl (e1 ▸ h2)
  · exact Or.inr ⟨e1.trans e2, h1.trans h2⟩

theorem lt_total (p q : Pt) : p < q ∨ p = q ∨ q < p := by
  rcases lt_trichotomy p.x q.x with h | h | h
  · exact Or.inl (Or.inl h)
  · rcases lt_trichotomy p.y q.y with h' | h' | h'
    · exact Or.inl (Or.inr ⟨h, h'⟩)
    · exact Or.inr (Or.inl (by cases p; cases q; simp_all))
    · exact Or.inr (Or.inr (Or.inr ⟨h.symm, h'⟩))
  · exact Or.inr (Or.inr (Or.inl h))

instance : LinearOrder Pt where
  le := Pt.le
  lt := Pt.lt
  le_refl p := Or.inr rfl
  le_trans p q r h1 h2 := by
    rcases h1 with h1 | rfl
    · rcases h2 with h2 | rfl
      · exact Or.inl (lt_trans h1 h2)
      · exact Or.inl h1
    · exact h2
  le_antisymm p q h1 h2 := by
    rcases h1 with h1 | rfl
    · rcases h2 with h2 | rfl
      · exact absurd (lt_trans h1 h2) (lt_irrefl p)
      · rfl
    · rfl
  le_total p q := by
    rcases lt_total p q with h | h | h
    · exact Or.inl (Or.inl h)
    · exact Or.inl (Or.inr h)
    · exact Or.inr (Or.inl h)
  lt_iff_le_not_le p q := by
    constructor
    · intro h
      refine ⟨Or.inl h, ?_⟩
      rintro (h' | rfl)
      · exact absurd (lt_trans h h') (lt_irrefl p)
      · exact absurd h (lt_irrefl _)
    · rintro ⟨h1 | rfl, h2⟩
      · exact h1
      · exact absurd (Or.inr rfl) h2
  decidableLE := Pt.decLe
  decidableLT := Pt.decLt
  decidableEq := inferInstance

end Pt

/-!
## The AVL ordered map of `event_tree.py`

`AVLNode` carries `value`, `data`, children and a stored `height`
(leaf height 0, absent child notional height −1).  We embed
the node graph as an inductive tree; the `parent` pointers of the source
only serve its upward-walking loops, which appear here as the
re-assembly of the tree along the recursion path.
-/

/-- A (sub)tree of `AVLNode`s: `value`, `data`, children, stored `height`. -/
inductive AVL (α β : Type) where
  | nil : AVL α β
  | node (l : AVL α β) (value : α) (data : β) (r : AVL α β) (height : ℤ) : AVL α β
deriving DecidableEq, Repr

namespace AVL

variable {α β : Type}

/-- Stored height of a subtree; an absent child counts as −1
(`AVLNode.balanceFactor`'s convention). -/
def ht : AVL α β → ℤ
  | nil => -1
  | node _ _ _ _ h => h

/-- `AVLNode.maxChildrenHeight`, literally its four cases. -/
def maxChildrenHeight : AVL α β → ℤ
  | nil => -1
  | node l _ _ r _ =>
    match l, r with
    | node _ _ _ _ hl, node _ _ _ _ hr => max hl hr
    | node _ _ _ _ hl, nil => hl
    | nil, node _ _ _ _ hr => hr
    | nil, nil => -1

/-- `AVLNode.balanceFactor`. -/
def balanceFactor : AVL α β → ℤ
  | nil => 0
  | node l _ _ r _ => ht l - ht r

/-- Whether the node has at least one child (used by `_recomputeHeights`:
a childless node gets height 0, otherwise `maxChildrenHeight + 1`). -/
def hasChild : AVL α β → Bool
  | nil => false
  | node l _ _ r _ =>
    match l, r with
    | nil, nil => false
    | _, _ => true

/-- Rebuild a node with the height `_recomputeHeights` would store for it
(children assumed already correct). -/
def mkNode (l : AVL α β) (v : α) (d : β) (r : AVL α β) : AVL α β :=
  let t := node l v d r 0
  node l v d r (if hasChild t then maxChildrenHeight t + 1 else 0)

/-- `AVLTree._rebalance`, the four rotation cases.  In each case the source
re-links the nodes named `A`, `B`, `C` and then re-runs `_recomputeHeights`
from the rotated nodes; here every rotated node is rebuilt with `mkNode`.
The `assert`s of the source (the named children exist) correspond to the
`nil` fall-through branches, which are unreachable when heights are sane. -/
def rebalance : AVL α β → AVL α β
  | nil => nil
  | node l v d r h =>
    if balanceFactor (node l v d r h) = -2 then
      match r with
      | nil => node l v d r h
      | node rl rv rd rr rh =>
        if balanceFactor (node rl rv rd rr rh) ≤ 0 then
          -- case RRC: B is the right child, C is B's right child
          match rr with
          | nil => node l v d r h
          | node _ _ _ _ _ => mkNode (mkNode l v d rl) rv rd rr
        else
          -- case RLC: B is the right child, C is B's left child
          match rl with
          | nil => node l v d r h
          | node cl cv cd cr _ =>
            mkNode (mkNode l v d cl) cv cd (mkNode cr rv rd rr)
    else
      -- source comment: A.balanceFactor() == +2
      match l with
      | nil => node l v d r h
      | node ll lv ld lr lh =>
        if balanceFactor (node ll lv ld lr lh) ≥ 0 then
          -- case LLC: B is the left child, C is B's left child
          match ll with
          | nil => node l v d r h
          | node _ _ _ _ _ => mkNode ll lv ld (mkNode lr v d r)
        else
          -- case LRC: B is the left child, C is B's right child
          match lr with
          | nil => node l v d r h
          | node cl cv cd cr _ =>
            mkNode (mkNode ll lv ld cl) cv cd (mkNode cr v d r)

/-- Rebuild one node along the insertion path: recompute its height and
rotate when the balance factor reaches ±2 (`_insertNode`'s upward walk
rebalances exactly the deepest such node; on trees whose stored heights are
correct at most one node on the path can reach ±2, and the rotation restores
the subtree height, so doing the check at every level is the same tree). -/
def insFix (l : AVL α β) (v : α) (d : β) (r : AVL α β) : AVL α β :=
  let t := mkNode l v d r
  if balanceFactor t = -2 ∨ balanceFactor t = 2 then rebalance t else t

/-- Rebuild one node along a deletion path: `_removeLeaf`/`_removeBranch`
walk to the root and rebalance every node whose balance factor leaves
{−1, 0, 1}. -/
def delFix (l : AVL α β) (v : α) (d : β) (r : AVL α β) : AVL α β :=
  let t := mkNode l v d r
  if balanceFactor t = -1 ∨ balanceFactor t = 0 ∨ balanceFactor t = 1 then t
  else rebalance t

/-- `AVLTree._insertNode`: descend comparing `currentNode.value` with the new
value (`>` then `<`, equality means the insert is refused), attach a fresh
leaf at an absent child, and fix heights/rotations on the way back up (the
source's `_recomputeHeights` + deepest-imbalance `_rebalance` walk).
On a refused insert the source mutates nothing, so the input node is
returned unchanged. -/
def insertNode [LinearOrder α] : AVL α β → α → β → Bool × AVL α β
  | nil, v, d => (true, node nil v d nil 0)
  | node l cv cd r h, v, d =>
    if v < cv then
      match l with
      | nil => (true, insFix (node nil v d nil 0) cv cd r)
      | node a b c e f =>
        let p := insertNode (node a b c e f) v d
        if p.1 then (true, insFix p.2 cv cd r)
        else (false, node (node a b c e f) cv cd r h)
    else if cv < v then
      match r with
      | nil => (true, insFix l cv cd (node nil v d nil 0))
      | node a b c e f =>
        let p := insertNode (node a b c e f) v d
        if p.1 then (true, insFix l cv cd p.2)
        else (false, node l cv cd (node a b c e f) h)
    else (false, node l cv cd r h)

/-- `AVLTree._dfsSearch` (and `search`), returning the found node's
`(value, data)` pair. -/
def dfsSearch [LinearOrder α] : AVL α β → α → Option (α × β)
  | nil, _ => none
  | node l cv cd r _, k =>
    if cv = k then some (cv, cd)
    else if k < cv then dfsSearch l k
    else dfsSearch r k

/-- In-order traversal, the `traverse` / `inOrder` of the source as a list of
`(value, data)` pairs. -/
def toList : AVL α β → List (α × β)
  | nil => []
  | node l v d r _ => toList l ++ (v, d) :: toList r

/-- The in-order list of stored values. -/
def keys (t : AVL α β) : List α := (toList t).map Prod.fst

/-- `_findSmallest` on the right subtree combined with the subsequent
removal: returns the smallest `(value, data)` and the subtree with that node
removed, heights fixed and rebalanced on the way back up
(the successor has no left child, so its right child is spliced in). -/
def removeMin : AVL α β → Option (α × β × AVL α β)
  | nil => none
  | node l v d r _ =>
    match l with
    | nil => some (v, d, r)
    | node _ _ _ _ _ =>
      match removeMin l with
      | some (mv, md, l') => some (mv, md, delFix l' v d r)
      | none => none

/-- Removal of the node holding key `k` (assumed present, not the
root-with-one-child case): leaf → unlink, one child → splice, two children →
`_swapWithSuccessorAndRemove` (the successor's `(value, data)` replaces the
removed position and the successor is unlinked from the right subtree).
Heights and rebalancing follow the source's walk from the removal point to
the root. -/
def delRec [LinearOrder α] : AVL α β → α → AVL α β
  | nil, _ => nil
  | node l cv cd r h, k =>
    if cv = k then
      match l with
      | nil => r
      | node a b c e f =>
        match r with
        | nil => node a b c e f
        | node a2 b2 c2 e2 f2 =>
          match removeMin (node a2 b2 c2 e2 f2) with
          | some (sv, sd, r') => delFix (node a b c e f) sv sd r'
          | none => node (node a b c e f) cv cd (node a2 b2 c2 e2 f2) h
    else if k < cv then delFix (delRec l k) cv cd r
    else delFix l cv cd (delRec r k)

/-- Does the node have exactly one child
(`(bool(node.left_child)) ^ (bool(node.right_child))`)? -/
def oneChild : AVL α β → Bool
  | nil => false
  | node l _ _ r _ =>
    match l, r with
    | nil, nil => false
    | node _ _ _ _ _, node _ _ _ _ _ => false
    | _, _ => true

end AVL

/-- The `AVLTree` object: a root and the `nodes_count` counter. -/
structure AVLTree (α β : Type) where
  root : AVL α β
  nodes_count : ℤ
deriving DecidableEq, Repr

namespace AVLTree

variable {α β : Type}

def empty : AVLTree α β := ⟨AVL.nil, 0⟩

/-- `AVLTree.insert`: `setRoot` on an empty tree, otherwise `_insertNode`;
`nodes_count` is incremented exactly when a new node was made. -/
def insert [LinearOrder α] (t : AVLTree α β) (v : α) (d : β) :
    Bool × AVLTree α β :=
  match t.root with
  | AVL.nil => (true, ⟨AVL.node AVL.nil v d AVL.nil 0, t.nodes_count + 1⟩)
  | AVL.node _ _ _ _ _ =>
    match AVL.insertNode t.root v d with
    | (true, r') => (true, ⟨r', t.nodes_count + 1⟩)
    | (false, r') => (false, ⟨r', t.nodes_count⟩)

/-- `AVLTree.search`. -/
def search [LinearOrder α] (t : AVLTree α β) (k : α) : Option (α × β) :=
  AVL.dfsSearch t.root k

/-- `AVLTree.delete_value`.  When the found node is the root and has exactly
one child, `_removeBranch` is called with `parent = None`: its whole body is
guarded by `if parent is not None`, so nothing is unlinked — the call still
returns `True` and still decrements `nodes_count`. -/
def delete_value [LinearOrder α] (t : AVLTree α β) (k : α) :
    Bool × AVLTree α β :=
  match AVL.dfsSearch t.root k with
  | none => (false, t)
  | some _ =>
    match t.root with
    | AVL.nil => (false, t)
    | AVL.node l v d r h =>
      if v = k ∧ AVL.oneChild (AVL.node l v d r h) then
        (true, ⟨AVL.node l v d r h, t.nodes_count - 1⟩)
      else (true, ⟨AVL.delRec t.root k, t.nodes_count - 1⟩)

/-- `AVLTree.traverse` as a list. -/
def traverse (t : AVLTree α β) : List (α × β) := AVL.toList t.root

end AVLTree

/-!
### Ordering facts about the embedded AVL tree

`Sorted` is the binary-search-tree invariant phrased on the in-order
traversal; rotations leave the traversal unchanged, which is the backbone of
every preservation lemma below.
-/

namespace AVL

variable {α β : Type}

/-- The search-tree invariant: in-order values strictly increase. -/
def Sorted [LinearOrder α] (t : AVL α β) : Prop :=
  (keys t).Pairwise (· < ·)

/-- Executable check for `Pairwise (· < ·)`. -/
def pairwiseLtBool [LinearOrder α] : List α → Bool
  | [] => true
  | x :: xs => xs.all (fun y => decide (x < y)) && pairwiseLtBool xs

theorem pairwiseLtBool_iff [LinearOrder α] (l : List α) :
    pairwiseLtBool l = true ↔ l.Pairwise (· < ·) := by
  induction l with
  | nil => simp [pairwiseLtBool]
  | cons x xs ih =>
    simp only [pairwiseLtBool, Bool.and_eq_true, List.all_eq_true,
      decide_eq_true_eq, List.pairwise_cons, ih]

instance [LinearOrder α] (t : AVL α β) : Decidable (Sorted t) :=
  decidable_of_iff _ (pairwiseLtBool_iff (keys t))

@[simp] theorem toList_nil : (nil : AVL α β).toList = [] := rfl

@[simp] theorem toList_node (l : AVL α β) (v d r h) :
    (node l v d r h).toList = toList l ++ (v, d) :: toList r := rfl

@[simp] theorem keys_nil : (nil : AVL α β).keys = [] := rfl

@[simp] theorem keys_node (l : AVL α β) (v d r h) :
    (node l v d r h).keys = keys l ++ v :: keys r := by
  simp [keys]

theorem mem_keys_of_mem_toList {t : AVL α β} {e : α × β}
    (h : e ∈ toList t) : e.1 ∈ keys t :=
  List.mem_map_of_mem Prod.fst h

/-- Splitting `Pairwise (· < ·)` around a distinguished middle element. -/
theorem pairwise_middle_iff [LinearOrder α] {l1 l2 : List α} {v : α} :
    (l1 ++ v :: l2).Pairwise (· < ·) ↔
      l1.Pairwise (· < ·) ∧ l2.Pairwise (· < ·) ∧
        (∀ x ∈ l1, x < v) ∧ (∀ y ∈ l2, v < y) := by
  rw [List.pairwise_append]
  simp only [List.pairwise_cons, List.mem_cons]
  constructor
  · rintro ⟨h1, ⟨hv, h2⟩, hx⟩
    exact ⟨h1, h2, fun x hx' => hx x hx' v (Or.inl rfl), hv⟩
  · rintro ⟨h1, h2, hxv, hv⟩
    refine ⟨h1, ⟨hv, h2⟩, fun x hx y hy => ?_⟩
    rcases hy with rfl | hy
    · exact hxv x hx
    · exact (hxv x hx).trans (hv y hy)

theorem sorted_node_iff [LinearOrder α] {l r : AVL α β} {v d h} :
    Sorted (node l v d r h) ↔
      Sorted l ∧ Sorted r ∧ (∀ x ∈ keys l, x < v) ∧ (∀ y ∈ keys r, v < y) := by
  simp only [Sorted, keys_node]
  exact pairwise_middle_iff

@[simp] theorem toList_mkNode (l : AVL α β) (v d r) :
    (mkNode l v d r).toList = toList l ++ (v, d) :: toList r := by
  simp [mkNode]

theorem toList_rebalance (t : AVL α β) : (rebalance t).toList = t.toList := by
  cases t with
  | nil => rfl
  | node l v d r h =>
    rw [rebalance.eq_def]
    dsimp only
    split
    · cases r with
      | nil => rfl
      | node rl rv rd rr rh =>
        dsimp only
        split
        · cases rr with
          | nil => rfl
          | node a b c e f => simp
        · cases rl with
          | nil => rfl
          | node a b c e f => simp
    · cases l with
      | nil => rfl
      | node ll lv ld lr lh =>
        dsimp only
        split
        · cases ll with
          | nil => rfl
          | node a b c e f => simp
        · cases lr with
          | nil => rfl
          | node a b c e f => simp

@[simp] theorem toList_insFix (l : AVL α β) (v d r) :
    (insFix l v d r).toList = toList l ++ (v, d) :: toList r := by
  rw [insFix]
  split
  · rw [toList_rebalance]; simp
  · simp

@[simp] theorem toList_delFix (l : AVL α β) (v d r) :
    (delFix l v d r).toList = toList l ++ (v, d) :: toList r := by
  rw [delFix]
  split
  · simp
  · rw [toList_rebalance]; simp

theorem keys_insFix [LinearOrder α] (l : AVL α β) (v d r) :
    (insFix l v d r).keys = keys l ++ v :: keys r := by
  simp [keys]

theorem keys_delFix [LinearOrder α] (l : AVL α β) (v d r) :
    (delFix l v d r).keys = keys l ++ v :: keys r := by
  simp [keys]

theorem sorted_insFix [LinearOrder α] {l r : AVL α β} {v : α} (d : β)
    (hl : Sorted l) (hr : Sorted r) (hbl : ∀ x ∈ keys l, x < v)
    (hbr : ∀ y ∈ keys r, v < y) : Sorted (insFix l v d r) := by
  unfold Sorted
  rw [keys_insFix]
  exact pairwise_middle_iff.mpr ⟨hl, hr, hbl, hbr⟩

theorem sorted_delFix [LinearOrder α] {l r : AVL α β} {v : α} (d : β)
    (hl : Sorted l) (hr : Sorted r) (hbl : ∀ x ∈ keys l, x < v)
    (hbr : ∀ y ∈ keys r, v < y) : Sorted (delFix l v d r) := by
  unfold Sorted
  rw [keys_delFix]
  exact pairwise_middle_iff.mpr ⟨hl, hr, hbl, hbr⟩

theorem mem_keys_left {l : AVL α β} {x : α} (hx : x ∈ keys l) (v d r h) :
    x ∈ keys (node l v d r h) := by
  rw [keys_node]
  exact List.mem_append.mpr (Or.inl hx)

theorem mem_keys_right {r : AVL α β} {x : α} (hx : x ∈ keys r) (l v d h) :
    x ∈ keys (node l v d r h) := by
  rw [keys_node]
  exact List.mem_append.mpr (Or.inr (List.mem_cons.mpr (Or.inr hx)))

theorem mem_keys_self (l : AVL α β) (v d r h) : v ∈ keys (node l v d r h) := by
  rw [keys_node]
  exact List.mem_append.mpr (Or.inr (List.mem_cons.mpr (Or.inl rfl)))

/-- `_insertNode` keeps the search-tree invariant and adds at most the new
value to the key set (on a refused insert it returns the tree unchanged). -/
theorem insertNode_sorted_sub [LinearOrder α] {t : AVL α β} (v : α) (d : β)
    (hs : Sorted t) :
    Sorted (insertNode t v d).2 ∧
      ∀ x ∈ keys (insertNode t v d).2, x = v ∨ x ∈ keys t := by
  induction t with
  | nil =>
    refine ⟨?_, ?_⟩
    · simp [insertNode, Sorted, keys, toList]
    · simp [insertNode, keys, toList]
  | node l cv cd r h ihl ihr =>
    rw [sorted_node_iff] at hs
    obtain ⟨hsl, hsr, hbl, hbr⟩ := hs
    rw [insertNode.eq_def]
    dsimp only
    split_ifs with h1 h2
    · -- v < cv : insert into the left subtree
      cases l with
      | nil =>
        dsimp only
        constructor
        · refine sorted_insFix cd (by simp [Sorted, keys, toList]) hsr ?_ hbr
          intro x hx
          simp [keys, toList] at hx
          simpa [hx] using h1
        · intro x hx
          rw [keys_insFix] at hx
          rcases List.mem_append.mp hx with hx | hx
          · simp [keys, toList] at hx
            exact Or.inl hx
          · rcases List.mem_cons.mp hx with rfl | hx'
            · exact Or.inr (mem_keys_self _ _ _ _ _)
            · exact Or.inr (mem_keys_right hx' _ _ _ _)
      | node a b c e f =>
        obtain ⟨ihs, ihsub⟩ := ihl hsl
        dsimp only
        rcases hres : insertNode (node a b c e f) v d with ⟨ok, l'⟩
        rw [hres] at ihs ihsub
        dsimp only at ihs ihsub
        cases ok
        · -- refused: unchanged node
          rw [if_neg (by simp)]
          exact ⟨sorted_node_iff.mpr ⟨hsl, hsr, hbl, hbr⟩, fun x hx => Or.inr hx⟩
        · rw [if_pos rfl]
          dsimp only
          constructor
          · refine sorted_insFix cd ihs hsr ?_ hbr
            intro x hx
            rcases ihsub x hx with rfl | hx'
            · exact h1
            · exact hbl x hx'
          · intro x hx
            rw [keys_insFix] at hx
            rcases List.mem_append.mp hx with hx | hx
            · rcases ihsub x hx with rfl | hx'
              · exact Or.inl rfl
              · exact Or.inr (mem_keys_left hx' _ _ _ _)
            · rcases List.mem_cons.mp hx with rfl | hx'
              · exact Or.inr (mem_keys_self _ _ _ _ _)
              · exact Or.inr (mem_keys_right hx' _ _ _ _)
    · -- cv < v : insert into the right subtree
      cases r with
      | nil =>
        dsimp only
        constructor
        · refine sorted_insFix cd hsl (by simp [Sorted, keys, toList]) hbl ?_
          intro x hx
          simp [keys, toList] at hx
          simpa [hx] using h2
        · intro x hx
          rw [keys_insFix] at hx
          rcases List.mem_append.mp hx with hx | hx
          · exact Or.inr (mem_keys_left hx _ _ _ _)
          · rcases List.mem_cons.mp hx with rfl | hx'
            · exact Or.inr (mem_keys_self _ _ _ _ _)
            · simp [keys, toList] at hx'
              exact Or.inl hx'
      | node a b c e f =>
        obtain ⟨ihs, ihsub⟩ := ihr hsr
        dsimp only
        rcases hres : insertNode (node a b c e f) v d with ⟨ok, r'⟩
        rw [hres] at ihs ihsub
        dsimp only at ihs ihsub
        cases ok
        · rw [if_neg (by simp)]
          exact ⟨sorted_node_iff.mpr ⟨hsl, hsr, hbl, hbr⟩, fun x hx => Or.inr hx⟩
        · rw [if_pos rfl]
          dsimp only
          constructor
          · refine sorted_insFix cd hsl ihs hbl ?_
            intro x hx
            rcases ihsub x hx with rfl | hx'
            · exact h2
            · exact hbr x hx'
          · intro x hx
            rw [keys_insFix] at hx
            rcases List.mem_append.mp hx with hx | hx
            · exact Or.inr (mem_keys_left hx _ _ _ _)
            · rcases List.mem_cons.mp hx with rfl | hx'
              · exact Or.inr (mem_keys_self _ _ _ _ _)
              · rcases ihsub x hx' with rfl | hx''
                · exact Or.inl rfl
                · exact Or.inr (mem_keys_right hx'' _ _ _ _)
    · -- equal values: refused, nothing changes
      exact ⟨sorted_node_iff.mpr ⟨hsl, hsr, hbl, hbr⟩, fun x hx => Or.inr hx⟩

/-- When `search` finds the key, `_insertNode` refuses the insert and the
tree is returned unchanged (the source mutates nothing on that path). -/
theorem insertNode_of_found [LinearOrder α] {t : AVL α β} {k : α}
    {p : α × β} (hf : dfsSearch t k = some p) (d' : β) :
    insertNode t k d' = (false, t) := by
  induction t with
  | nil => simp [dfsSearch] at hf
  | node l cv cd r h ihl ihr =>
    rw [dfsSearch] at hf
    rw [insertNode.eq_def]
    dsimp only
    split_ifs at hf with h1 h2
    · -- cv = k: the insert guards `k < cv` and `cv < k` both fail
      subst h1
      rw [if_neg (lt_irrefl cv), if_neg (lt_irrefl cv)]
    · -- k < cv: the key sits in the left subtree
      rw [if_pos h2]
      cases l with
      | nil => simp [dfsSearch] at hf
      | node a b c e f =>
        dsimp only
        rw [ihl hf]
        simp
    · -- cv < k: the key sits in the right subtree
      have h3 : ¬ k < cv := h2
      have h4 : cv < k := by
        rcases lt_trichotomy cv k with h' | h' | h'
        · exact h'
        · exact absurd h' h1
        · exact absurd h' h3
      rw [if_neg h3, if_pos h4]
      cases r with
      | nil => simp [dfsSearch] at hf
      | node a b c e f =>
        dsimp only
        rw [ihr hf]
        simp

/-- `_findSmallest`-plus-removal: the in-order list of a nonempty subtree is
the extracted minimum followed by the in-order list of the remainder. -/
theorem removeMin_spec : ∀ (l : AVL α β) (v : α) (d : β) (r : AVL α β) (h : ℤ),
    ∃ mv md t', removeMin (node l v d r h) = some (mv, md, t') ∧
      toList (node l v d r h) = (mv, md) :: toList t'
  | nil, v, d, r, h => ⟨v, d, r, by rw [removeMin], by simp⟩
  | node ll lv ld lr lh, v, d, r, h => by
    obtain ⟨mv, md, t', he, hl⟩ := removeMin_spec ll lv ld lr lh
    refine ⟨mv, md, delFix t' v d r, ?_, ?_⟩
    · rw [removeMin]
      rw [he]
    · rw [toList_delFix, toList_node, hl]
      simp

/-- Node removal keeps the search-tree invariant and never adds keys. -/
theorem delRec_sorted_sub [LinearOrder α] {t : AVL α β} (k : α)
    (hs : Sorted t) :
    Sorted (delRec t k) ∧ ∀ x ∈ keys (delRec t k), x ∈ keys t := by
  induction t with
  | nil => simp [delRec, Sorted, keys, toList]
  | node l cv cd r h ihl ihr =>
    rw [sorted_node_iff] at hs
    obtain ⟨hsl, hsr, hbl, hbr⟩ := hs
    rw [delRec.eq_def]
    dsimp only
    split_ifs with h1 h2
    · -- found the node
      cases l with
      | nil =>
        refine ⟨hsr, ?_⟩
        intro x hx
        dsimp only at hx
        exact mem_keys_right hx _ _ _ _
      | node a b c e f =>
        cases r with
        | nil =>
          refine ⟨hsl, ?_⟩
          intro x hx
          dsimp only at hx
          exact mem_keys_left hx _ _ _ _
        | node a2 b2 c2 e2 f2 =>
          obtain ⟨sv, sd, r', he, hlst⟩ := removeMin_spec a2 b2 c2 e2 f2
          dsimp only
          rw [he]
          have hkeys : keys (node a2 b2 c2 e2 f2) = sv :: keys r' := by
            unfold keys
            rw [hlst]
            rfl
          have hsv : cv < sv :=
            hbr sv (by rw [hkeys]; exact List.mem_cons_self _ _)
          have hr' : Sorted r' ∧ ∀ y ∈ keys r', sv < y := by
            have hx := hsr
            unfold Sorted at hx
            rw [hkeys] at hx
            rw [List.pairwise_cons] at hx
            exact ⟨hx.2, hx.1⟩
          constructor
          · refine sorted_delFix sd hsl hr'.1 ?_ hr'.2
            intro x hx
            exact (hbl x hx).trans hsv
          · intro x hx
            rw [keys_delFix] at hx
            rcases List.mem_append.mp hx with hx | hx
            · exact mem_keys_left hx _ _ _ _
            · refine mem_keys_right ?_ _ _ _ _
              rw [hkeys]
              rcases List.mem_cons.mp hx with rfl | hx'
              · exact List.mem_cons_self _ _
              · exact List.mem_cons.mpr (Or.inr hx')
    · -- k < cv : remove in the left subtree
      obtain ⟨ihs, ihsub⟩ := ihl hsl
      constructor
      · exact sorted_delFix cd ihs hsr (fun x hx => hbl x (ihsub x hx)) hbr
      · intro x hx
        rw [keys_delFix] at hx
        rcases List.mem_append.mp hx with hx | hx
        · exact mem_keys_left (ihsub x hx) _ _ _ _
        · rcases List.mem_cons.mp hx with rfl | hx'
          · exact mem_keys_self _ _ _ _ _
          · exact mem_keys_right hx' _ _ _ _
    · -- cv < k : remove in the right subtree
      obtain ⟨ihs, ihsub⟩ := ihr hsr
      constructor
      · exact sorted_delFix cd hsl ihs hbl (fun x hx => hbr x (ihsub x hx))
      · intro x hx
        rw [keys_delFix] at hx
        rcases List.mem_append.mp hx with hx | hx
        · exact mem_keys_left hx _ _ _ _
        · rcases List.mem_cons.mp hx with rfl | hx'
          · exact mem_keys_self _ _ _ _ _
          · exact mem_keys_right (ihsub x hx') _ _ _ _

end AVL

namespace AVLTree

variable {α β : Type}

/-- `insert` at the tree-object level: sortedness is kept and at most the
new value joins the key set. -/
theorem insert_sorted_sub [LinearOrder α] {t : AVLTree α β} (v : α) (d : β)
    (hs : AVL.Sorted t.root) :
    AVL.Sorted (t.insert v d).2.root ∧
      ∀ x ∈ AVL.keys (t.insert v d).2.root, x = v ∨ x ∈ AVL.keys t.root := by
  rw [insert]
  cases hroot : t.root with
  | nil =>
    refine ⟨by simp [AVL.Sorted, AVL.keys], ?_⟩
    intro x hx
    simp [AVL.keys, AVL.toList] at hx
    exact Or.inl hx
  | node l cv cd r h =>
    have := AVL.insertNode_sorted_sub (t := AVL.node l cv cd r h) v d
      (hroot ▸ hs)
    rcases hres : AVL.insertNode (AVL.node l cv cd r h) v d with ⟨ok, r'⟩
    rw [hres] at this
    cases ok <;> simpa [hroot] using this

/-- `delete_value` at the tree-object level: sortedness is kept and no key
is ever added (on the defective root path the tree is unchanged). -/
theorem delete_value_sorted_sub [LinearOrder α] {t : AVLTree α β} (k : α)
    (hs : AVL.Sorted t.root) :
    AVL.Sorted (t.delete_value k).2.root ∧
      ∀ x ∈ AVL.keys (t.delete_value k).2.root, x ∈ AVL.keys t.root := by
  obtain ⟨root, cnt⟩ := t
  dsimp only at hs ⊢
  rw [delete_value]
  dsimp only
  cases hf : AVL.dfsSearch root k with
  | none => exact ⟨hs, fun x hx => hx⟩
  | some p =>
    cases root with
    | nil => exact ⟨hs, fun x hx => hx⟩
    | node l cv cd r h =>
      dsimp only
      split_ifs with h1
      · exact ⟨hs, fun x hx => hx⟩
      · exact AVL.delRec_sorted_sub k hs

end AVLTree

/-!
## The event store (`EventTree` / `EventStorage` of `sweep_line.py`)

Events are keyed by points (Python two-element lists, hence lexicographic
order) and carry a set of `(segment index, role)` pairs.
-/

/-- The bounding-box filter of `_get_nearby_range`:
`all([lo[ii] <= node.value[ii] <= hi[ii] for ii in range(2)])`. -/
def inBox (lo hi p : Pt) : Prop :=
  lo.x ≤ p.x ∧ p.x ≤ hi.x ∧ lo.y ≤ p.y ∧ p.y ≤ hi.y

instance (lo hi p : Pt) : Decidable (inBox lo hi p) :=
  inferInstanceAs (Decidable (_ ∧ _ ∧ _ ∧ _))

namespace AVL

variable {β : Type}

/-- `EventTree._get_nearby_range`: prune subtrees by the lexicographic
order, record the nodes whose coordinates fit the box.  (The source also
tests `node.left_child is not None` before recursing; recursing into an
absent child returns nothing, so the result is the same.) -/
def getNearbyRange (lo hi : Pt) : AVL Pt β → List (Pt × β)
  | nil => []
  | node l v d r _ =>
    (if lo < v then getNearbyRange lo hi l else []) ++
      (if inBox lo hi v then [(v, d)] else []) ++
        (if v < hi then getNearbyRange lo hi r else [])

/-- Everything the range query returns is a stored entry inside the box. -/
theorem getNearbyRange_sound {lo hi : Pt} {t : AVL Pt β} :
    ∀ e ∈ getNearbyRange lo hi t, e ∈ toList t ∧ inBox lo hi e.1 := by
  induction t with
  | nil => simp [getNearbyRange]
  | node l v d r h ihl ihr =>
    intro e he
    rw [getNearbyRange] at he
    rcases List.mem_append.mp he with he | he
    · rcases List.mem_append.mp he with he | he
      · split_ifs at he with hc
        · exact ⟨by simp [(ihl e he).1], (ihl e he).2⟩
        · simp at he
      · split_ifs at he with hc
        · simp at he
          exact ⟨by simp [he], he ▸ hc⟩
        · simp at he
    · split_ifs at he with hc
      · exact ⟨by simp [(ihr e he).1], (ihr e he).2⟩
      · simp at he

/-- On a search tree the pruning loses nothing: every stored entry inside
the box is returned. -/
theorem getNearbyRange_complete {lo hi : Pt} {t : AVL Pt β}
    (hs : Sorted t) :
    ∀ e ∈ toList t, inBox lo hi e.1 → e ∈ getNearbyRange lo hi t := by
  induction t with
  | nil => simp
  | node l v d r h ihl ihr =>
    rw [sorted_node_iff] at hs
    obtain ⟨hsl, hsr, hbl, hbr⟩ := hs
    intro e he hbox
    rw [getNearbyRange]
    rw [toList_node] at he
    rcases List.mem_append.mp he with he | he
    · have hlt : lo < v := by
        by_contra hc
        have hvle : v ≤ lo := not_lt.mp hc
        have h1 : e.1 < v := hbl e.1 (mem_keys_of_mem_toList he)
        have h2 : e.1 < lo := lt_of_lt_of_le h1 hvle
        rcases (Pt.lt_def e.1 lo).mp h2 with h3 | ⟨h3, h4⟩
        · exact absurd hbox.1 (not_le.mpr h3)
        · exact absurd hbox.2.2.1 (not_le.mpr h4)
      refine List.mem_append.mpr (Or.inl (List.mem_append.mpr (Or.inl ?_)))
      rw [if_pos hlt]
      exact ihl hsl e he hbox
    · rcases List.mem_cons.mp he with rfl | he
      · refine List.mem_append.mpr (Or.inl (List.mem_append.mpr (Or.inr ?_)))
        rw [if_pos hbox]
        exact List.mem_singleton.mpr rfl
      · have hlt : v < hi := by
          by_contra hc
          have hvge : hi ≤ v := not_lt.mp hc
          have h1 : v < e.1 := hbr e.1 (mem_keys_of_mem_toList he)
          have h2 : hi < e.1 := lt_of_le_of_lt hvge h1
          rcases (Pt.lt_def hi e.1).mp h2 with h3 | ⟨h3, h4⟩
          · exact absurd hbox.2.1 (not_le.mpr h3)
          · exact absurd hbox.2.2.2 (not_le.mpr h4)
        refine List.mem_append.mpr (Or.inr ?_)
        rw [if_pos hlt]
        exact ihr hsr e he hbox

end AVL

/-- The payload of an event: the deduplicated set of
`(segment index, role)` pairs. -/
abbrev EventData := Finset (ℕ × Role)

/-- `EventStorage` wraps the AVL tree (`Q_tree`) keyed by points. -/
abbrev EventStorage := AVLTree Pt EventData

namespace EventStorage

/-- `EventStorage.add_point`: query the closed TOL-box around `(x, y)`; if
empty, insert a fresh event; otherwise delete every matched event, union
all their payload sets with the new pairs, and re-insert a single event at
the point of the *first* matched entry.  (The source interleaves the
deletes with the set unions; the deletes touch only the tree and the unions
only the set, so the two folds below are the same computation.) -/
def add_point (st : EventStorage) (x y : ℚ) (seg_dat : List (ℕ × Role)) :
    EventStorage :=
  let nvl := AVL.getNearbyRange ⟨x - TOL, y - TOL⟩ ⟨x + TOL, y + TOL⟩ st.root
  match nvl with
  | [] => (st.insert ⟨x, y⟩ seg_dat.toFinset).2
  | first :: _ =>
    let st' := nvl.foldl (fun s nd => (s.delete_value nd.1).2) st
    let glm := nvl.foldl (fun s nd => s ∪ nd.2) seg_dat.toFinset
    (st'.insert first.1 glm).2

/-- `EventStorage.glom_to_seg`: for an exactly vertical segment, re-key
every stored event strictly inside the segment's y-range (with TOL margin)
and within TOL of its x onto the segment (delete, then insert at `[x, y]`).
The early return on an empty query is the empty fold. -/
def glom_to_seg (st : EventStorage) (seg : Pt × Pt) : EventStorage :=
  let lo_pt := if seg.1.y > seg.2.y then seg.2 else seg.1
  let hi_pt := if seg.1.y > seg.2.y then seg.1 else seg.2
  let x := seg.1.x
  let ymn := lo_pt.y
  let ymx := hi_pt.y
  let nvl := AVL.getNearbyRange ⟨x - TOL, ymn⟩ ⟨x + TOL, ymx⟩ st.root
  nvl.foldl (fun s nd =>
    if ymn + TOL ≤ nd.1.y ∧ nd.1.y ≤ ymx - TOL ∧ |nd.1.x - x| < TOL then
      (((s.delete_value nd.1).2).insert ⟨x, nd.1.y⟩ nd.2).2
    else s) st

/-- The event-store proximity invariant: no two stored event points are
within TOL of each other in both coordinates. -/
def Separated (st : EventStorage) : Prop :=
  ∀ p ∈ AVL.keys st.root, ∀ q ∈ AVL.keys st.root,
    p ≠ q → ¬ (|p.x - q.x| ≤ TOL ∧ |p.y - q.y| ≤ TOL)

instance (st : EventStorage) : Decidable (Separated st) :=
  inferInstanceAs (Decidable (∀ p ∈ AVL.keys st.root, ∀ q ∈ AVL.keys st.root,
    p ≠ q → ¬ (|p.x - q.x| ≤ TOL ∧ |p.y - q.y| ≤ TOL)))

/-- Folding deletions keeps the search-tree invariant and never adds keys. -/
theorem foldl_delete_sorted_sub (L : List (Pt × EventData)) :
    ∀ (st : EventStorage), AVL.Sorted st.root →
      AVL.Sorted (L.foldl (fun s nd => (s.delete_value nd.1).2) st).root ∧
        ∀ x ∈ AVL.keys (L.foldl (fun s nd => (s.delete_value nd.1).2) st).root,
          x ∈ AVL.keys st.root := by
  induction L with
  | nil => exact fun st hs => ⟨hs, fun x hx => hx⟩
  | cons nd L ih =>
    intro st hs
    have h1 := AVLTree.delete_value_sorted_sub (t := st) nd.1 hs
    have h2 := ih ((st.delete_value nd.1).2) h1.1
    exact ⟨h2.1, fun x hx => h1.2 x (h2.2 x hx)⟩

end EventStorage

/-!
## Claims about the ordered map and the event store
-/

/-- The two-node tree `insert 1; insert 2` used to exhibit the deletion
defect: its root holds 1 and has exactly one (right) child holding 2. -/
def bugTree : AVLTree ℤ Unit :=
  (((AVLTree.empty : AVLTree ℤ Unit).insert 1 ()).2.insert 2 ()).2

/-- C1: the spec says `delete(k)` removes the entry with key k if present —
in particular when the deleted node is the root and has exactly one child.
The code violates this: on the tree `insert 1; insert 2`, `delete_value 1`
targets the root (which has one child), returns `True`, yet a subsequent
`search 1` still finds the entry (`_removeBranch` does nothing when
`parent is None`). -/
theorem C1_delete_root_one_child_is_noop :
    (bugTree.delete_value 1).1 = true ∧
      (bugTree.delete_value 1).2.search 1 = some (1, ()) ∧
      (bugTree.delete_value 1).2.nodes_count = 1 := by
  decide

/-- C2: the round-trip invariant says that after any sequence of inserts and
deletes the in-order traversal lists exactly the surviving keys.  After
`insert 1; insert 2; delete_value 1` (which returns `True`, so key 1 did not
survive), the traversal still yields `[1, 2]`: the defective root deletion
left the key in the tree. -/
theorem C2_traversal_keeps_deleted_key :
    (bugTree.delete_value 1).1 = true ∧
      AVL.keys (bugTree.delete_value 1).2.root = [1, 2] := by
  decide

/-- C10: inserting a key that is already present returns `False` and leaves
the tree object — structure, stored data, and `nodes_count` — unchanged. -/
theorem C10_insert_existing_key_unchanged {α β : Type} [LinearOrder α]
    (t : AVLTree α β) (k : α) (p : α × β) (d' : β)
    (hf : t.search k = some p) :
    t.insert k d' = (false, t) := by
  obtain ⟨root, cnt⟩ := t
  rw [AVLTree.search] at hf
  dsimp only at hf
  rw [AVLTree.insert]
  cases root with
  | nil => simp [AVL.dfsSearch] at hf
  | node l cv cd r h =>
    dsimp only
    rw [AVL.insertNode_of_found hf d']

theorem C10_witness :
    bugTree.search 2 = some (2, ()) ∧ bugTree.insert 2 () = (false, bugTree) :=
  ⟨by decide, C10_insert_existing_key_unchanged bugTree 2 (2, ()) () (by decide)⟩

/-- C3 (amended): on an event store satisfying the search-tree invariant in
which no two stored points are within TOL of each other in both
coordinates, `add_point` preserves both properties: an empty box query
inserts a point that is farther than TOL (in some coordinate) from every
stored point, and a glomming insert only re-uses the key of the first
matched (already stored) entry.  (`glom_to_seg` does *not* preserve the
separation — see the counterexample.) -/
theorem C3_add_point_preserves_separation (st : EventStorage) (x y : ℚ)
    (dat : List (ℕ × Role)) (hs : AVL.Sorted st.root)
    (hsep : EventStorage.Separated st) :
    AVL.Sorted (EventStorage.add_point st x y dat).root ∧
      EventStorage.Separated (EventStorage.add_point st x y dat) := by
  unfold EventStorage.add_point
  dsimp only
  cases hnvl : AVL.getNearbyRange ⟨x - TOL, y - TOL⟩ ⟨x + TOL, y + TOL⟩
      st.root with
  | nil =>
    obtain ⟨hins, hsub⟩ := AVLTree.insert_sorted_sub (t := st)
      (⟨x, y⟩ : Pt) dat.toFinset hs
    refine ⟨hins, ?_⟩
    have hnot : ∀ q ∈ AVL.keys st.root,
        ¬ (|x - q.x| ≤ TOL ∧ |y - q.y| ≤ TOL) := by
      intro q hq hcl
      obtain ⟨e, he, he1⟩ := List.mem_map.mp hq
      have hbox : inBox ⟨x - TOL, y - TOL⟩ ⟨x + TOL, y + TOL⟩ q := by
        obtain ⟨h1, h2⟩ := abs_le.mp hcl.1
        obtain ⟨h3, h4⟩ := abs_le.mp hcl.2
        exact ⟨by dsimp only; linarith, by dsimp only; linarith,
          by dsimp only; linarith, by dsimp only; linarith⟩
      have hmem := AVL.getNearbyRange_complete hs e he (he1 ▸ hbox)
      rw [hnvl] at hmem
      simp at hmem
    intro p hp q hq hpq
    rcases hsub p hp with rfl | hp' <;> rcases hsub q hq with rfl | hq'
    · exact absurd rfl hpq
    · -- p is the fresh point, q was already stored
      intro hcl
      exact hnot q hq' ⟨hcl.1, hcl.2⟩
    · -- q is the fresh point, p was already stored
      intro hcl
      refine hnot p hp' ⟨?_, ?_⟩
      · rw [abs_sub_comm]
        exact hcl.1
      · rw [abs_sub_comm]
        exact hcl.2
    · exact hsep p hp' q hq' hpq
  | cons first rest =>
    dsimp only
    obtain ⟨hs', hsub'⟩ :=
      EventStorage.foldl_delete_sorted_sub (first :: rest) st hs
    obtain ⟨hins, hsub⟩ := AVLTree.insert_sorted_sub
      (t := (first :: rest).foldl (fun s nd => (s.delete_value nd.1).2) st)
      first.1 ((first :: rest).foldl (fun s nd => s ∪ nd.2) dat.toFinset) hs'
    refine ⟨hins, ?_⟩
    have hfirst : first.1 ∈ AVL.keys st.root := by
      have hsound := AVL.getNearbyRange_sound (t := st.root) first
        (by rw [hnvl]; exact List.mem_cons_self _ _)
      exact AVL.mem_keys_of_mem_toList hsound.1
    intro p hp q hq hpq
    have hp2 : p ∈ AVL.keys st.root := by
      rcases hsub p hp with rfl | hp'
      · exact hfirst
      · exact hsub' p hp'
    have hq2 : q ∈ AVL.keys st.root := by
      rcases hsub q hq with rfl | hq'
      · exact hfirst
      · exact hsub' q hq'
    exact hsep p hp2 q hq2 hpq

theorem C3_witness :
    AVL.Sorted (AVLTree.empty : EventStorage).root ∧
      EventStorage.Separated AVLTree.empty ∧
      (AVL.Sorted (EventStorage.add_point AVLTree.empty 0 0
          [(0, Role.left)]).root ∧
        EventStorage.Separated (EventStorage.add_point AVLTree.empty 0 0
          [(0, Role.left)])) :=
  ⟨by decide, by decide,
    C3_add_point_preserves_separation AVLTree.empty 0 0 [(0, Role.left)]
      (by decide) (by decide)⟩

/-- A store holding two events more than TOL apart in x, both within TOL of
the vertical line x = 0 and within TOL of each other in y. -/
def c3Store : EventStorage :=
  EventStorage.add_point
    (EventStorage.add_point AVLTree.empty (-(9/10) * TOL) 0 [(0, Role.left)])
    ((9/10) * TOL) (TOL / 2) [(1, Role.left)]

/-- C3 (counterexample): the claimed invariant — no two stored event points
within TOL of each other in both coordinates — does not survive
`glom_to_seg`.  Both events of `c3Store` are re-keyed onto the vertical
segment at x = 0 and end up 0 apart in x and TOL/2 apart in y. -/
theorem C3_counterexample :
    AVL.Sorted c3Store.root ∧ EventStorage.Separated c3Store ∧
      ¬ EventStorage.Separated
        (EventStorage.glom_to_seg c3Store (⟨0, -2 * TOL⟩, ⟨0, 2 * TOL⟩)) := by
  decide

/-!
## The geometric primitive `seg_int_pts` of `sweep_line.py`

The source normalizes by the Euclidean segment lengths `nrms` before
comparing against `TOL_ACC`.  Over the rationals each such comparison is
rendered by the equivalent comparison of squares:
`|c| / n < TOL  ↔  c² < TOL² · n²`,
`c / n < -TOL  ↔  c < 0 ∧ c² > TOL² · n²`, and
`c / n > n + TOL  ↔  c - n² > 0 ∧ (c - n²)² > TOL² · n²`  (for `n > 0`);
the final interpolation ratio `|s₀|/(|s₀|+|s₁|)` is unchanged by the common
positive factor `1/n`, so it is computed from the unnormalized values.
-/

/-- Coincidence of two points within TOL in both coordinates (the four
endpoint checks opening `seg_int_pts`). -/
def near (p q : Pt) : Prop := |p.x - q.x| < TOL ∧ |p.y - q.y| < TOL

instance (p q : Pt) : Decidable (near p q) :=
  inferInstanceAs (Decidable (_ ∧ _))

/-- Result of `seg_int_pts`: `(None, None)`, `(None, float('inf'))`, or
`((role₁, role₂), [x, y])`. -/
inductive IntResult where
  | noInt : IntResult
  | overlap : IntResult
  | pt (r1 r2 : Role) (p : Pt) : IntResult
deriving DecidableEq, Repr

/-- `seg_int_pts(seg_1, seg_2)` from `sweep_line.py`; segments are
`(p1, p2)` pairs with `p1.x ≤ p2.x` expected by the source.  Branch for
branch the translation follows the source; `raw`/`pos` are the source's
`sgns[ii]`/`tmp_pos` multiplied by the (positive) segment length, and every
test is the square-form equivalent described above.  (In the source a
zero-length segment raises `ZeroDivisionError`; here the squared tests are
total.  The fall-through of the second co-axial check — both endpoints of
segment 1 on segment 2's axis — continues to the crossing computation,
exactly as the missing `else` in the source does.) -/
def seg_int_pts (s1 s2 : Pt × Pt) : IntResult :=
  let p11 := s1.1
  let p12 := s1.2
  let p21 := s2.1
  let p22 := s2.2
  if near p11 p21 then .pt .left .left p11
  else if near p11 p22 then .pt .left .right p11
  else if near p12 p21 then .pt .right .left p12
  else if near p12 p22 then .pt .right .right p22
  else
    let v1x := p12.x - p11.x
    let v1y := p12.y - p11.y
    let v2x := p22.x - p21.x
    let v2y := p22.y - p21.y
    let n1sq := v1x ^ 2 + v1y ^ 2
    let n2sq := v2x ^ 2 + v2y ^ 2
    -- first pass: segment 2's endpoints against segment 1
    let raw0 := (p21.x - p11.x) * v1y - (p21.y - p11.y) * v1x
    let raw1 := (p22.x - p11.x) * v1y - (p22.y - p11.y) * v1x
    let onAx0 : Bool := decide (raw0 ^ 2 < TOL ^ 2 * n1sq)
    let onAx1 : Bool := decide (raw1 ^ 2 < TOL ^ 2 * n1sq)
    let pos0 := (p21.x - p11.x) * v1x + (p21.y - p11.y) * v1y
    let pos1 := (p22.x - p11.x) * v1x + (p22.y - p11.y) * v1y
    let low0 : Bool := decide (pos0 < 0 ∧ pos0 ^ 2 > TOL ^ 2 * n1sq)
    let low1 : Bool := decide (pos1 < 0 ∧ pos1 ^ 2 > TOL ^ 2 * n1sq)
    let hi0 : Bool :=
      decide (pos0 - n1sq > 0 ∧ (pos0 - n1sq) ^ 2 > TOL ^ 2 * n1sq)
    let hi1 : Bool :=
      decide (pos1 - n1sq > 0 ∧ (pos1 - n1sq) ^ 2 > TOL ^ 2 * n1sq)
    let eptInt0 : Bool := onAx0 && !low0 && !hi0
    let eptInt1 : Bool := onAx1 && !low1 && !hi1
    if onAx0 || onAx1 then
      if onAx0 != onAx1 then
        -- one endpoint of segment 2 on segment 1's axis: T-junction or miss
        if eptInt0 then .pt .internal .left p21
        else if eptInt1 then .pt .internal .right p22
        else .noInt
      else
        -- all endpoints co-axial: disjoint or overlapping
        if (low0 && low1) || (hi0 && hi1) then .noInt
        else .overlap
    else if (raw0 > 0 ∧ raw1 > 0) ∨ (raw0 < 0 ∧ raw1 < 0) then .noInt
    else
      -- second pass: segment 1's endpoints against segment 2
      let raw0' := (p11.x - p21.x) * v2y - (p11.y - p21.y) * v2x
      let raw1' := (p12.x - p21.x) * v2y - (p12.y - p21.y) * v2x
      let onAx0' : Bool := decide (raw0' ^ 2 < TOL ^ 2 * n2sq)
      let onAx1' : Bool := decide (raw1' ^ 2 < TOL ^ 2 * n2sq)
      let pos0' := (p11.x - p21.x) * v2x + (p11.y - p21.y) * v2y
      let pos1' := (p12.x - p21.x) * v2x + (p12.y - p21.y) * v2y
      let low0' : Bool := decide (pos0' < 0 ∧ pos0' ^ 2 > TOL ^ 2 * n2sq)
      let low1' : Bool := decide (pos1' < 0 ∧ pos1' ^ 2 > TOL ^ 2 * n2sq)
      let hi0' : Bool :=
        decide (pos0' - n2sq > 0 ∧ (pos0' - n2sq) ^ 2 > TOL ^ 2 * n2sq)
      let hi1' : Bool :=
        decide (pos1' - n2sq > 0 ∧ (pos1' - n2sq) ^ 2 > TOL ^ 2 * n2sq)
      let eptInt0' : Bool := onAx0' && !low0' && !hi0'
      let eptInt1' : Bool := onAx1' && !low1' && !hi1'
      let rto := |raw0'| / (|raw0'| + |raw1'|)
      let cross : IntResult :=
        .pt .internal .internal ⟨p11.x + rto * v1x, p11.y + rto * v1y⟩
      if onAx0' || onAx1' then
        if onAx0' != onAx1' then
          if eptInt0' then .pt .left .internal p11
          else if eptInt1' then .pt .right .internal p12
          else .noInt
        else cross  -- source falls through without a return here
      else if (raw0' > 0 ∧ raw1' > 0) ∨ (raw0' < 0 ∧ raw1' < 0) then .noInt
      else cross

/-- Default segment used for the (never exercised) out-of-range list
accesses `seg_lst[ix]` when embedding `update_events`. -/
def dfltSeg : Pt × Pt := (⟨0, 0⟩, ⟨0, 1⟩)

/-- `update_events(val, seg_lst, ix_1, ix_2, events)`: run `seg_int_pts` on
the two segments; `Overlap` raises `ValueError` (`none` here); a found
point is handed to `add_point` — and reported — exactly when
`pt > [val[0]-TOL_ACC, val[1]-TOL_ACC]` in Python's lexicographic list
order; otherwise the store is untouched and no point is reported. -/
def update_events (val : Pt) (seg_lst : List (Pt × Pt)) (ix1 ix2 : ℕ)
    (events : EventStorage) : Option (EventStorage × Option Pt) :=
  match seg_int_pts (seg_lst.getD ix1 dfltSeg) (seg_lst.getD ix2 dfltSeg) with
  | .overlap => none
  | .noInt => some (events, none)
  | .pt r1 r2 p =>
    if (⟨val.x - TOL, val.y - TOL⟩ : Pt) < p then
      some (EventStorage.add_point events p.x p.y [(ix1, r1), (ix2, r2)],
        some p)
    else some (events, none)

/-!
## Claims about the geometric primitive and the future-event filter
-/

/-- `|p - q| < TOL` fails symmetrically. -/
theorem near_comm {p q : Pt} (h : ¬ near p q) : ¬ near q p := by
  unfold near at h ⊢
  rw [abs_sub_comm q.x p.x, abs_sub_comm q.y p.y]
  exact h

def offAxis (s : Pt × Pt) (q : Pt) : Prop :=
  ((q.x - s.1.x) * (s.2.y - s.1.y) - (q.y - s.1.y) * (s.2.x - s.1.x)) ^ 2 ≥
    TOL ^ 2 * ((s.2.x - s.1.x) ^ 2 + (s.2.y - s.1.y) ^ 2)

instance (s : Pt × Pt) (q : Pt) : Decidable (offAxis s q) :=
  inferInstanceAs (Decidable (_ ≥ _))

theorem nsq_pos {p q : Pt} (h : p ≠ q) :
    0 < (q.x - p.x) ^ 2 + (q.y - p.y) ^ 2 := by
  rcases eq_or_ne p.x q.x with hx | hx
  · rcases eq_or_ne p.y q.y with hy | hy
    · exact absurd (by cases p; cases q; simp_all) h
    · have h2 : (q.y - p.y) ^ 2 > 0 := by
        have : q.y - p.y ≠ 0 := sub_ne_zero.mpr (Ne.symm hy)
        positivity
      nlinarith [sq_nonneg (q.x - p.x)]
  · have h2 : (q.x - p.x) ^ 2 > 0 := by
      have : q.x - p.x ≠ 0 := sub_ne_zero.mpr (Ne.symm hx)
      positivity
    nlinarith [sq_nonneg (q.y - p.y)]

set_option maxHeartbeats 1000000 in
theorem C8_seg_int_pts_symmetric_generic (s1 s2 : Pt × Pt) (hne1 : s1.1 ≠ s1.2) (hne2 : s2.1 ≠ s2.2)
    (h1 : ¬ near s1.1 s2.1) (h2 : ¬ near s1.1 s2.2)
    (h3 : ¬ near s1.2 s2.1) (h4 : ¬ near s1.2 s2.2)
    (h5 : offAxis s1 s2.1) (h6 : offAxis s1 s2.2)
    (h7 : offAxis s2 s1.1) (h8 : offAxis s2 s1.2) :
    (seg_int_pts s1 s2 = .noInt ∧ seg_int_pts s2 s1 = .noInt) ∨
      ∃ p, seg_int_pts s1 s2 = .pt .internal .internal p ∧
        seg_int_pts s2 s1 = .pt .internal .internal p := by
  unfold seg_int_pts
  dsimp only
  rw [if_neg h1, if_neg h2, if_neg h3, if_neg h4,
    if_neg (near_comm h1), if_neg (near_comm h3),
    if_neg (near_comm h2), if_neg (near_comm h4)]
  rw [decide_eq_false (not_lt.mpr h5), decide_eq_false (not_lt.mpr h6),
    decide_eq_false (not_lt.mpr h7), decide_eq_false (not_lt.mpr h8)]
  simp only [Bool.or_self, bne_self_eq_false, Bool.false_eq_true, if_false]
  split_ifs with hA hB hB
  · exact Or.inl ⟨rfl, rfl⟩
  · exact Or.inl ⟨rfl, rfl⟩
  · exact Or.inl ⟨rfl, rfl⟩
  · refine Or.inr ⟨_, rfl, ?_⟩
    rw [IntResult.pt.injEq]
    refine ⟨rfl, rfl, ?_⟩
    rw [Pt.mk.injEq]
    unfold offAxis at h5 h6 h7 h8
    have hn1 := nsq_pos hne1
    have hn2 := nsq_pos hne2
    have hTOL : (0:ℚ) < TOL := by norm_num [TOL]
    have hT2 : (0:ℚ) < TOL ^ 2 := pow_pos hTOL 2
    set a := (s1.1.x - s2.1.x) * (s2.2.y - s2.1.y) -
      (s1.1.y - s2.1.y) * (s2.2.x - s2.1.x) with ha_def
    set b := (s1.2.x - s2.1.x) * (s2.2.y - s2.1.y) -
      (s1.2.y - s2.1.y) * (s2.2.x - s2.1.x) with hb_def
    set c := (s2.1.x - s1.1.x) * (s1.2.y - s1.1.y) -
      (s2.1.y - s1.1.y) * (s1.2.x - s1.1.x) with hc_def
    set d := (s2.2.x - s1.1.x) * (s1.2.y - s1.1.y) -
      (s2.2.y - s1.1.y) * (s1.2.x - s1.1.x) with hd_def
    have ha0 : a ≠ 0 := by
      intro h0
      rw [h0] at h7
      have hpos := mul_pos hT2 hn2
      simp only [ne_eq, OfNat.ofNat_ne_zero, not_false_eq_true, zero_pow] at h7
      linarith
    have hb0 : b ≠ 0 := by
      intro h0
      rw [h0] at h8
      have hpos := mul_pos hT2 hn2
      simp only [ne_eq, OfNat.ofNat_ne_zero, not_false_eq_true, zero_pow] at h8
      linarith
    have hc0 : c ≠ 0 := by
      intro h0
      rw [h0] at h5
      have hpos := mul_pos hT2 hn1
      simp only [ne_eq, OfNat.ofNat_ne_zero, not_false_eq_true, zero_pow] at h5
      linarith
    have hd0 : d ≠ 0 := by
      intro h0
      rw [h0] at h6
      have hpos := mul_pos hT2 hn1
      simp only [ne_eq, OfNat.ofNat_ne_zero, not_false_eq_true, zero_pow] at h6
      linarith
    have hab : (0 < a ∧ b < 0) ∨ (a < 0 ∧ 0 < b) := by
      rcases ha0.lt_or_lt with ha' | ha' <;> rcases hb0.lt_or_lt with hb' | hb'
      · exact absurd (Or.inr ⟨ha', hb'⟩) hB
      · exact Or.inr ⟨ha', hb'⟩
      · exact Or.inl ⟨ha', hb'⟩
      · exact absurd (Or.inl ⟨ha', hb'⟩) hB
    have hcd : (0 < c ∧ d < 0) ∨ (c < 0 ∧ 0 < d) := by
      rcases hc0.lt_or_lt with hc' | hc' <;> rcases hd0.lt_or_lt with hd' | hd'
      · exact absurd (Or.inr ⟨hc', hd'⟩) hA
      · exact Or.inr ⟨hc', hd'⟩
      · exact Or.inl ⟨hc', hd'⟩
      · exact absurd (Or.inl ⟨hc', hd'⟩) hA
    rcases hab with ⟨ha', hb'⟩ | ⟨ha', hb'⟩ <;>
      rcases hcd with ⟨hc', hd'⟩ | ⟨hc', hd'⟩
    · rw [abs_of_pos ha', abs_of_neg hb', abs_of_pos hc', abs_of_neg hd']
      have hd1 : a + -b ≠ 0 := by intro h0; linarith
      have hd2 : c + -d ≠ 0 := by intro h0; linarith
      constructor
      · field_simp
        rw [ha_def, hb_def, hc_def, hd_def]
        ring
      · field_simp
        rw [ha_def, hb_def, hc_def, hd_def]
        ring
    · rw [abs_of_pos ha', abs_of_neg hb', abs_of_neg hc', abs_of_pos hd']
      have hd1 : a + -b ≠ 0 := by intro h0; linarith
      have hd2 : -c + d ≠ 0 := by intro h0; linarith
      constructor
      · field_simp
        rw [ha_def, hb_def, hc_def, hd_def]
        ring
      · field_simp
        rw [ha_def, hb_def, hc_def, hd_def]
        ring
    · rw [abs_of_neg ha', abs_of_pos hb', abs_of_pos hc', abs_of_neg hd']
      have hd1 : -a + b ≠ 0 := by intro h0; linarith
      have hd2 : c + -d ≠ 0 := by intro h0; linarith
      constructor
      · field_simp
        rw [ha_def, hb_def, hc_def, hd_def]
        ring
      · field_simp
        rw [ha_def, hb_def, hc_def, hd_def]
        ring
    · rw [abs_of_neg ha', abs_of_pos hb', abs_of_neg hc', abs_of_pos hd']
      have hd1 : -a + b ≠ 0 := by intro h0; linarith
      have hd2 : -c + d ≠ 0 := by intro h0; linarith
      constructor
      · field_simp
        rw [ha_def, hb_def, hc_def, hd_def]
        ring
      · field_simp
        rw [ha_def, hb_def, hc_def, hd_def]
        ring


theorem C8_witness :
    ((⟨0, 0⟩ : Pt) ≠ ⟨2, 2⟩) ∧
      ((seg_int_pts ((⟨0, 0⟩ : Pt), ⟨2, 2⟩) ((⟨0, 2⟩ : Pt), ⟨2, 0⟩) =
            .noInt ∧
          seg_int_pts ((⟨0, 2⟩ : Pt), ⟨2, 0⟩) ((⟨0, 0⟩ : Pt), ⟨2, 2⟩) =
            .noInt) ∨
        ∃ p, seg_int_pts ((⟨0, 0⟩ : Pt), ⟨2, 2⟩) ((⟨0, 2⟩ : Pt), ⟨2, 0⟩) =
              .pt .internal .internal p ∧
          seg_int_pts ((⟨0, 2⟩ : Pt), ⟨2, 0⟩) ((⟨0, 0⟩ : Pt), ⟨2, 2⟩) =
            .pt .internal .internal p) :=
  ⟨by decide,
    C8_seg_int_pts_symmetric_generic ((⟨0, 0⟩ : Pt), ⟨2, 2⟩)
      ((⟨0, 2⟩ : Pt), ⟨2, 0⟩) (by decide) (by decide) (by decide) (by decide)
      (by decide) (by decide) (by decide) (by decide) (by decide) (by decide)⟩

/-- The near-collinear sliver pair: each segment has exactly one endpoint
inside the other's TOL tube ((5, TOL/2) on the horizontal bar's tube, and
(10, 0) on the sliver's tube). -/
def c8A : Pt × Pt := (⟨0, 0⟩, ⟨10, 0⟩)

def c8B : Pt × Pt := (⟨5, TOL / 2⟩, ⟨15, -3 * TOL / 2⟩)

/-- C8 (counterexample): `seg_int_pts(A, B)` and `seg_int_pts(B, A)` need
not agree.  On the sliver pair the first order reports a T-junction at B's
left endpoint (5, TOL/2) with roles (internal, left); the reversed order
reports a T-junction at A's right endpoint (10, 0) with roles
(internal, right).  The two points are 5 apart in x (not within TOL) and
the role pairs are not component-wise swaps of each other. -/
theorem C8_counterexample :
    seg_int_pts c8A c8B = .pt .internal .left ⟨5, TOL / 2⟩ ∧
      seg_int_pts c8B c8A = .pt .internal .right ⟨10, 0⟩ ∧
      (Role.right, Role.internal) ≠ (Role.internal, Role.left) ∧
      ¬ (|(5 : ℚ) - 10| ≤ TOL ∧ |TOL / 2 - 0| ≤ TOL) := by
  decide

/-- The X-crossing pair used for the `update_events` claims. -/
def c5segs : List (Pt × Pt) := [(⟨-1, -1⟩, ⟨1, 1⟩), (⟨-1, 1⟩, ⟨1, -1⟩)]

/-- C5 (amended): when `seg_int_pts` reports a point `p`, `update_events`
hands it to `add_point` (and returns it) exactly when `p` is
lexicographically strictly greater than `(val.x - TOL, val.y - TOL)`;
otherwise the store is returned untouched.  In particular a candidate equal
to the current sweep position, or less than TOL behind it, passes the
filter and is *not* discarded. -/
theorem C5_future_event_filter (val : Pt) (segs : List (Pt × Pt))
    (ix1 ix2 : ℕ) (st : EventStorage) (r1 r2 : Role) (p : Pt)
    (hint : seg_int_pts (segs.getD ix1 dfltSeg) (segs.getD ix2 dfltSeg) =
      .pt r1 r2 p) :
    update_events val segs ix1 ix2 st =
      if val.x - TOL < p.x ∨ (val.x - TOL = p.x ∧ val.y - TOL < p.y) then
        some (EventStorage.add_point st p.x p.y [(ix1, r1), (ix2, r2)],
          some p)
      else some (st, none) := by
  unfold update_events
  rw [hint]
  dsimp only
  by_cases hc : (⟨val.x - TOL, val.y - TOL⟩ : Pt) < p
  · rw [if_pos hc, if_pos ((Pt.lt_def _ _).mp hc)]
  · rw [if_neg hc, if_neg (fun hor => hc ((Pt.lt_def _ _).mpr hor))]

theorem C5_witness :
    seg_int_pts (c5segs.getD 0 dfltSeg) (c5segs.getD 1 dfltSeg) =
        .pt .internal .internal ⟨0, 0⟩ ∧
      update_events ⟨5, 5⟩ c5segs 0 1 AVLTree.empty =
        (if (5 : ℚ) - TOL < 0 ∨ ((5 : ℚ) - TOL = 0 ∧ (5 : ℚ) - TOL < 0) then
          some (EventStorage.add_point AVLTree.empty 0 0
            [(0, Role.internal), (1, Role.internal)], some ⟨0, 0⟩)
        else some (AVLTree.empty, none)) :=
  ⟨by decide,
    C5_future_event_filter ⟨5, 5⟩ c5segs 0 1 AVLTree.empty .internal
      .internal ⟨0, 0⟩ (by decide)⟩

/-- C5 (counterexample): the claim says a candidate point equal to the
current sweep position is discarded and not added.  With the X-crossing
pair and the sweep at the crossing (0, 0) itself, `update_events` passes
the candidate to `add_point` (the store gains the event) and reports it. -/
theorem C5_counterexample :
    update_events ⟨0, 0⟩ c5segs 0 1 AVLTree.empty =
      some (EventStorage.add_point AVLTree.empty 0 0
        [(0, Role.internal), (1, Role.internal)], some ⟨0, 0⟩) ∧
      AVL.keys (EventStorage.add_point AVLTree.empty 0 0
        [(0, Role.internal), (1, Role.internal)]).root = [⟨0, 0⟩] := by
  decide

/-!
## The status structure (`status_tree.py`)

`Segment` objects are the payloads; the tree is the base AVL keyed by the
synthetic float "node values", but insertion descends by the segment
comparator.  The auxiliary `node_index` dictionary maps a segment index to
its node value.
-/

/-- `status_tree.Segment`: endpoint pair stored with `p1.x ≤ p2.x`.  The
source also precomputes the direction vector `vec` and its unit
normalization `nrm_vec` (whose construction divides by the Euclidean norm
and raises `ZeroDivisionError` on a zero-length segment — `Segment.mk?`
below); here `vec`/`nrmsq` are recomputed from the endpoints. -/
structure Segment where
  p1 : Pt
  p2 : Pt
deriving DecidableEq, Repr

namespace Segment

/-- The constructor's endpoint ordering: swap iff `seg_vls[0][0] > seg_vls[1][0]`. -/
def make (a b : Pt) : Segment :=
  if a.x > b.x then ⟨b, a⟩ else ⟨a, b⟩

def vecx (s : Segment) : ℚ := s.p2.x - s.p1.x

def vecy (s : Segment) : ℚ := s.p2.y - s.p1.y

/-- Squared Euclidean norm of the direction vector. -/
def nrmsq (s : Segment) : ℚ := s.vecx ^ 2 + s.vecy ^ 2

/-- `Segment.__init__` raises `ZeroDivisionError` when normalizing the
direction vector of a zero-length segment; modelled as `none`. -/
def mk? (a b : Pt) : Option Segment :=
  let s := make a b
  if s.nrmsq = 0 then none else some s

/-- `Segment.__gt__`: is `a` above `b`?  The source projects onto the unit
perpendicular of the reference segment's direction and compares against
`TOL_ACC`; the comparisons here are the equivalent square forms with the
un-normalized cross product (`tmp` below is the source's `tmp` times the
positive norm). -/
def gt (a b : Segment) : Bool :=
  let sn : ℚ := if a.p1.x > b.p1.x then -1 else 1
  let v0x := if a.p1.x > b.p1.x then b.vecx else a.vecx
  let v0y := if a.p1.x > b.p1.x then b.vecy else a.vecy
  let nsq := if a.p1.x > b.p1.x then b.nrmsq else a.nrmsq
  let v1x := if a.p1.x > b.p1.x then a.p1.x - b.p2.x else b.p1.x - a.p2.x
  let v1y := if a.p1.x > b.p1.x then a.p1.y - b.p2.y else b.p1.y - a.p2.y
  let tmp := -v0y * v1x + v0x * v1y
  if sn * tmp > 0 ∧ (sn * tmp) ^ 2 > TOL ^ 2 * nsq then false
  else if tmp ^ 2 < TOL ^ 2 * nsq then
    decide (-b.vecx * a.vecy + b.vecy * a.vecx < 0)
  else true

/-- Python evaluates `x < y` with only `__gt__` defined through the
reflected operator: `x < y` is `y.__gt__(x)`. -/
def lt (a b : Segment) : Bool := gt b a

end Segment

/-- The `data` payload of status-tree nodes: segment index and segment. -/
structure NodeData where
  sg_ix : ℕ
  seg : Segment
deriving DecidableEq, Repr

/-- `AVLStatusTree.VALUE_SPREAD = 512.0`. -/
def VALUE_SPREAD : ℚ := 512

/-- `AVLStatusTree.VALUE_MIN = 1e-8`. -/
def VALUE_MIN : ℚ := 1 / 100000000

/-- The `AVLStatusTree` object: the inherited tree and node counter plus
the `node_index` dictionary (segment index ↦ node value), modelled as an
association list. -/
structure AVLStatusTree where
  root : AVL ℚ NodeData
  nodes_count : ℤ
  node_index : List (ℕ × ℚ)
deriving DecidableEq, Repr

/-- Dictionary read `d[i]` (as an `Option`). -/
def idxLookup (l : List (ℕ × ℚ)) (i : ℕ) : Option ℚ :=
  (l.find? (fun p => p.1 = i)).map (fun p => p.2)

/-- Dictionary write `d[i] = v`. -/
def idxSet (l : List (ℕ × ℚ)) (i : ℕ) (v : ℚ) : List (ℕ × ℚ) :=
  if (l.find? (fun p => p.1 = i)).isSome then
    l.map (fun p => if p.1 = i then (i, v) else p)
  else l ++ [(i, v)]

/-- Dictionary delete `del d[i]`. -/
def idxDel (l : List (ℕ × ℚ)) (i : ℕ) : List (ℕ × ℚ) :=
  l.filter (fun p => p.1 ≠ i)

namespace AVLStatusTree

def empty : AVLStatusTree := ⟨AVL.nil, 0, []⟩

/-- `AVLStatusTree._insertNode`: descend by the segment comparator.  At the
attachment point the source mints the node value from the topological
neighbors: `next_up`/`next_dn` of the fresh leaf are the attachment parent
on one side and, on the other, the deepest ancestor the search left in the
opposite direction — carried here as the `up`/`dn` accumulators.  Returns
the updated subtree, the minted value, and the `reb_vls` flag (value gap
below `VALUE_MIN`); `none` when an "equal" segment already exists. -/
def insStat : AVL ℚ NodeData → NodeData → Option ℚ → Option ℚ →
    Option (AVL ℚ NodeData × ℚ × Bool)
  | AVL.nil, _, _, _ => none
  | AVL.node l cv cd r h, data, up, dn =>
    if cd.seg.gt data.seg then
      match l with
      | AVL.nil =>
        let nod_val := match dn with
          | none => cv - VALUE_SPREAD
          | some dv => (cv + dv) / 2
        let reb : Bool := match dn with
          | none => false
          | some dv => decide (|cv - dv| < VALUE_MIN)
        some (AVL.insFix (AVL.node AVL.nil nod_val data AVL.nil 0) cv cd r,
          nod_val, reb)
      | AVL.node a b c e f =>
        match insStat (AVL.node a b c e f) data (some cv) dn with
        | some (l', val, reb) => some (AVL.insFix l' cv cd r, val, reb)
        | none => none
    else if data.seg.gt cd.seg then
      match r with
      | AVL.nil =>
        let nod_val := match up with
          | none => cv + VALUE_SPREAD
          | some uv => (cv + uv) / 2
        let reb : Bool := match up with
          | none => false
          | some uv => decide (|cv - uv| < VALUE_MIN)
        some (AVL.insFix l cv cd (AVL.node AVL.nil nod_val data AVL.nil 0),
          nod_val, reb)
      | AVL.node a b c e f =>
        match insStat (AVL.node a b c e f) data up (some cv) with
        | some (r', val, reb) => some (AVL.insFix l cv cd r', val, reb)
        | none => none
    else none

/-- In-order value re-assignment of `rebalance_values` starting at `cr_vl`,
also rebuilding the index dictionary (`tmp_dct`). -/
def assignValues : AVL ℚ NodeData → ℚ →
    AVL ℚ NodeData × ℚ × List (ℕ × ℚ)
  | AVL.nil, v => (AVL.nil, v, [])
  | AVL.node l _ cd r h, v =>
    let (l', v1, i1) := assignValues l v
    let (r', v2, i2) := assignValues r (v1 + VALUE_SPREAD)
    (AVL.node l' v1 cd r' h, v2, i1 ++ (cd.sg_ix, v1) :: i2)

/-- `AVLStatusTree.rebalance_values`: walk in order re-assigning node
values `cr_vl, cr_vl + VALUE_SPREAD, …` with
`cr_vl = -VALUE_SPREAD * floor(node_count / 2)`, and replace `node_index`
with the rebuilt dictionary.  (`node_count()` is read *before* `insert`
increments it, so a rebalance triggered inside an insert uses the
pre-insert count.) -/
def rebalance_values (t : AVLStatusTree) : AVLStatusTree :=
  match t.root with
  | AVL.nil => t
  | AVL.node a b c e f =>
    let start := -VALUE_SPREAD * (⌊(t.nodes_count : ℚ) / 2⌋ : ℤ)
    let res := assignValues (AVL.node a b c e f) start
    ⟨res.1, t.nodes_count, res.2.2⟩

/-- `AVLStatusTree.insert`: root case mints value 0.0; otherwise
`_insertNode` places the node, records `node_index[sg_ix]`, runs
`rebalance_values` when flagged, and finally `nodes_count` is incremented
exactly on success. -/
def insert (t : AVLStatusTree) (data : NodeData) : Bool × AVLStatusTree :=
  match t.root with
  | AVL.nil =>
    (true, ⟨AVL.node AVL.nil 0 data AVL.nil 0, t.nodes_count + 1,
      idxSet t.node_index data.sg_ix 0⟩)
  | AVL.node _ _ _ _ _ =>
    match insStat t.root data none none with
    | none => (false, t)
    | some (t', val, reb) =>
      let st1 : AVLStatusTree :=
        ⟨t', t.nodes_count, idxSet t.node_index data.sg_ix val⟩
      let st2 := if reb then rebalance_values st1 else st1
      (true, ⟨st2.root, st2.nodes_count + 1, st2.node_index⟩)

/-- `AVLStatusTree.delete_segment`: read the node value from `node_index`
(a missing segment raises `KeyError` — `none`), delete by value through the
base class, drop the dictionary entry. -/
def delete_segment (t : AVLStatusTree) (sg_ix : ℕ) :
    Option (Bool × AVLStatusTree) :=
  match idxLookup t.node_index sg_ix with
  | none => none
  | some nd_vl =>
    let res := AVLTree.delete_value ⟨t.root, t.nodes_count⟩ nd_vl
    some (res.1, ⟨res.2.root, res.2.nodes_count, idxDel t.node_index sg_ix⟩)

end AVLStatusTree

namespace AVL

variable {α β : Type}

/-- Mutating `node.data` on the node found by value search (the effect of
`node_1.data = …` after `self.search(val_1)` in `swap_segs`). -/
def setData [LinearOrder α] : AVL α β → α → β → AVL α β
  | nil, _, _ => nil
  | node l cv cd r h, k, d =>
    if cv = k then node l cv d r h
    else if k < cv then node (setData l k d) cv cd r h
    else node l cv cd (setData r k d) h

end AVL

namespace AVLStatusTree

/-- `AVLStatusTree.swap_segs`: look up both node values (`KeyError` when a
segment is missing), search both nodes (an absent node is an
`AttributeError`), exchange their `data`, and cross the two dictionary
entries. -/
def swap_segs (t : AVLStatusTree) (ix1 ix2 : ℕ) : Option AVLStatusTree :=
  match idxLookup t.node_index ix1, idxLookup t.node_index ix2 with
  | some v1, some v2 =>
    match AVL.dfsSearch t.root v1, AVL.dfsSearch t.root v2 with
    | some (_, d1), some (_, d2) =>
      some ⟨AVL.setData (AVL.setData t.root v1 d2) v2 d1, t.nodes_count,
        idxSet (idxSet t.node_index ix1 v2) ix2 v1⟩
    | _, _ => none
  | _, _ => none

/-- The in-order sequence of segment indices in the status. -/
def statusOrder (t : AVLStatusTree) : List ℕ :=
  (AVL.toList t.root).map (fun e => e.2.sg_ix)

/-- The implicit `node_index` invariant (claim C9): every stored node's
segment index maps back to that node's value, and every dictionary entry
points at a stored node carrying its segment index. -/
def Consistent (t : AVLStatusTree) : Prop :=
  (∀ e ∈ AVL.toList t.root, idxLookup t.node_index e.2.sg_ix = some e.1) ∧
    (∀ p ∈ t.node_index,
      ∃ e ∈ AVL.toList t.root, e.1 = p.2 ∧ e.2.sg_ix = p.1)

instance (t : AVLStatusTree) : Decidable (Consistent t) :=
  inferInstanceAs (Decidable (_ ∧ _))

end AVLStatusTree

/-!
## Claims about preprocessing, input validation, and the status index
-/

/-- The near-vertical snap of `run_sweep_line`'s preprocessing:
`if abs(seg[0][0] - seg[1][0]) <= TOL_ACC: seg[0][0] = seg[1][0]`. -/
def snap_vertical (seg : Pt × Pt) : Pt × Pt :=
  if |seg.1.x - seg.2.x| ≤ TOL then (⟨seg.2.x, seg.1.y⟩, seg.2) else seg

/-- The preprocessing pass over the (deep-copied) input list.  This is the
whole of `run_sweep_line`'s entry handling: no validation of any kind is
performed before it. -/
def preprocess_verticals (seg_lst : List (Pt × Pt)) : List (Pt × Pt) :=
  seg_lst.map snap_vertical

/-- C6 (amended): a segment whose endpoint x-coordinates differ by at most
TOL becomes exactly vertical, with both x-coordinates set to the *second*
endpoint's x (the source assigns `seg[0][0] = seg[1][0]`); the
y-coordinates are untouched. -/
theorem C6_near_vertical_snap (seg : Pt × Pt)
    (h : |seg.1.x - seg.2.x| ≤ TOL) :
    (snap_vertical seg).1.x = (snap_vertical seg).2.x ∧
      (snap_vertical seg).2 = seg.2 ∧ (snap_vertical seg).1.y = seg.1.y := by
  rw [snap_vertical, if_pos h]
  exact ⟨rfl, rfl, rfl⟩

theorem C6_witness :
    |(0 : ℚ) - TOL / 2| ≤ TOL ∧
      ((snap_vertical ((⟨0, 0⟩ : Pt), (⟨TOL / 2, 1⟩ : Pt))).1.x =
          (snap_vertical ((⟨0, 0⟩ : Pt), (⟨TOL / 2, 1⟩ : Pt))).2.x ∧
        (snap_vertical ((⟨0, 0⟩ : Pt), (⟨TOL / 2, 1⟩ : Pt))).2 =
          (⟨TOL / 2, 1⟩ : Pt) ∧
        (snap_vertical ((⟨0, 0⟩ : Pt), (⟨TOL / 2, 1⟩ : Pt))).1.y = 0) :=
  ⟨by decide,
    C6_near_vertical_snap ((⟨0, 0⟩ : Pt), (⟨TOL / 2, 1⟩ : Pt)) (by decide)⟩

/-- The concrete input of the spec's near-vertical scenario. -/
def c6input : List (Pt × Pt) :=
  [(⟨0, 0⟩, ⟨TOL / 2, 1⟩), (⟨0, 1 / 2⟩, ⟨1, 1 / 2⟩)]

/-- C6 (counterexample): on the concrete input, the first segment becomes
exactly vertical at x = TOL/2 — the second endpoint's x — not at x = 0 as
claimed; its top (Right) endpoint keeps x = TOL/2 ≠ 0. -/
theorem C6_counterexample :
    preprocess_verticals c6input =
      [(⟨TOL / 2, 0⟩, ⟨TOL / 2, 1⟩), (⟨0, 1 / 2⟩, ⟨1, 1 / 2⟩)] ∧
      (TOL / 2 : ℚ) ≠ 0 := by
  decide

/-- An input list whose first segment has coincident endpoints. -/
def c7input : List (Pt × Pt) := [(⟨0, 0⟩, ⟨0, 0⟩), (⟨1, 1⟩, ⟨2, 2⟩)]

/-- C7: the claim (from the spec's error-handling design) says a malformed
segment — coincident endpoints — is rejected at entry.  The code has no
entry validation: its entire entry processing (the near-vertical pass)
accepts the degenerate segment untouched, and the failure only surfaces
later inside the sweep, when `status_tree.Segment` is first built for the
segment and normalizing its zero-length direction vector divides by zero. -/
theorem C7_no_entry_rejection :
    preprocess_verticals c7input = c7input ∧
      Segment.mk? ⟨0, 0⟩ ⟨0, 0⟩ = none := by
  decide

def c9seg0 : Segment := Segment.make ⟨0, 0⟩ ⟨1, 0⟩

def c9seg1 : Segment := Segment.make ⟨0, 1⟩ ⟨1, 1⟩

/-- Status tree holding segments 0 (root, value 0.0) and 1 (child, value
512.0). -/
def c9pre : AVLStatusTree :=
  ((AVLStatusTree.empty.insert ⟨0, c9seg0⟩).2.insert ⟨1, c9seg1⟩).2

def c9post : AVLStatusTree :=
  ((c9pre.delete_segment 0).map Prod.snd).getD c9pre

/-- C9: the implicit invariant says `node_index` stays exactly consistent
with the tree after every operation.  `delete_segment 0` on `c9pre`
targets the root, which has exactly one child, so the inherited
`delete_value` unlinks nothing (the `_removeBranch` defect) — yet the
dictionary entry is removed: afterwards the tree still stores segment 0
but `node_index` no longer mentions it. -/
theorem C9_delete_segment_desyncs_node_index :
    c9pre.Consistent ∧
      c9pre.delete_segment 0 = some (true, c9post) ∧
      c9post.statusOrder = [0, 1] ∧
      c9post.node_index = [(1, 512)] ∧
      ¬ c9post.Consistent := by
  decide

end SweepLine
namespace SweepLine

namespace AVL

variable {α β : Type}

theorem map_if_id [DecidableEq α] {k : α} {L : List (α × β)}
    (h : ∀ e ∈ L, e.1 ≠ k) (d : β) :
    L.map (fun e => if e.1 = k then (k, d) else e) = L := by
  induction L with
  | nil => rfl
  | cons p L ih =>
    rw [List.map_cons, if_neg (h p (List.mem_cons_self p L)),
      ih (fun e he => h e (List.mem_cons_of_mem p he))]

theorem toList_setData [LinearOrder α] {t : AVL α β} (hs : Sorted t)
    (k : α) (d : β) :
    toList (setData t k d) =
      (toList t).map (fun e => if e.1 = k then (k, d) else e) := by
  induction t with
  | nil => rfl
  | node l cv cd r h ihl ihr =>
    rw [sorted_node_iff] at hs
    obtain ⟨hsl, hsr, hbl, hbr⟩ := hs
    rw [setData]
    split_ifs with h1 h2
    · subst h1
      rw [toList_node, toList_node, List.map_append, List.map_cons]
      rw [if_pos rfl]
      rw [map_if_id (fun e he => ne_of_lt (hbl e.1 (mem_keys_of_mem_toList he))) d,
        map_if_id (fun e he => ne_of_gt (hbr e.1 (mem_keys_of_mem_toList he))) d]
    · rw [toList_node, toList_node, List.map_append, List.map_cons]
      rw [if_neg (fun hh => absurd (hh ▸ h2) (lt_irrefl _)),
        map_if_id (fun e he => ne_of_gt (lt_trans h2 (hbr e.1 (mem_keys_of_mem_toList he)))) d]
      rw [ihl hsl]
    · have h3 : cv < k := by
        rcases lt_trichotomy cv k with h' | h' | h'
        · exact h'
        · exact absurd h' h1
        · exact absurd h' h2
      rw [toList_node, toList_node, List.map_append, List.map_cons]
      rw [if_neg (ne_of_lt h3),
        map_if_id (fun e he => ne_of_lt (lt_trans (hbl e.1 (mem_keys_of_mem_toList he)) h3)) d]
      rw [ihr hsr]

theorem dfsSearch_found [LinearOrder α] {t : AVL α β} (hs : Sorted t)
    {e : α × β} (he : e ∈ toList t) : dfsSearch t e.1 = some e := by
  induction t with
  | nil => simp at he
  | node l cv cd r h ihl ihr =>
    rw [sorted_node_iff] at hs
    obtain ⟨hsl, hsr, hbl, hbr⟩ := hs
    rw [dfsSearch]
    rw [toList_node] at he
    rcases List.mem_append.mp he with he | he
    · have hlt : e.1 < cv := hbl e.1 (mem_keys_of_mem_toList he)
      rw [if_neg (ne_of_gt hlt), if_pos hlt]
      exact ihl hsl he
    · rcases List.mem_cons.mp he with rfl | he
      · rw [if_pos rfl]
      · have hgt : cv < e.1 := hbr e.1 (mem_keys_of_mem_toList he)
        rw [if_neg (ne_of_lt hgt), if_neg (not_lt.mpr (le_of_lt hgt))]
        exact ihr hsr he

theorem toList_key_unique [LinearOrder α] {t : AVL α β} (hs : Sorted t)
    {e1 e2 : α × β} (h1 : e1 ∈ toList t) (h2 : e2 ∈ toList t)
    (hk : e1.1 = e2.1) : e1 = e2 := by
  have ha := dfsSearch_found hs h1
  have hb := dfsSearch_found hs h2
  rw [← hk] at hb
  rw [ha] at hb
  exact Option.some_injective _ hb

end AVL

theorem idxLookup_set_self (l : List (ℕ × ℚ)) (i : ℕ) (v : ℚ) :
    idxLookup (idxSet l i v) i = some v := by
  unfold idxSet
  split_ifs with h
  · induction l with
    | nil => simp [List.find?] at h
    | cons p l ih =>
      rw [List.map_cons]
      by_cases hp : p.1 = i
      · rw [if_pos hp]
        unfold idxLookup
        rw [List.find?_cons_of_pos _ (by simp)]
        rfl
      · rw [if_neg hp]
        unfold idxLookup
        rw [List.find?_cons_of_neg _ (by simp [hp])]
        rw [List.find?_cons_of_neg _ (by simp [hp])] at h
        exact ih h
  · unfold idxLookup
    induction l with
    | nil =>
      rw [List.nil_append, List.find?_cons_of_pos _ (by simp)]
      rfl
    | cons p l ih =>
      have hp : ¬ p.1 = i := by
        intro hp
        apply h
        rw [List.find?_cons_of_pos _ (by simp [hp])]
        rfl
      rw [List.cons_append, List.find?_cons_of_neg _ (by simp [hp])]
      apply ih
      intro h'
      apply h
      rw [List.find?_cons_of_neg _ (by simp [hp])]
      exact h'

theorem find?_map_overwrite (l : List (ℕ × ℚ)) (i k : ℕ) (v : ℚ)
    (hk : k ≠ i) :
    (l.map (fun p => if p.1 = i then (i, v) else p)).find?
        (fun q => q.1 = k) = l.find? (fun q => q.1 = k) := by
  induction l with
  | nil => rfl
  | cons p l ih =>
    rw [List.map_cons]
    by_cases hp : p.1 = i
    · rw [if_pos hp]
      rw [List.find?_cons_of_neg _ (by simp [Ne.symm hk]),
        List.find?_cons_of_neg _ (by simp [hp, Ne.symm hk])]
      exact ih
    · rw [if_neg hp]
      by_cases hpk : p.1 = k
      · rw [List.find?_cons_of_pos _ (by simp [hpk]),
          List.find?_cons_of_pos _ (by simp [hpk])]
      · rw [List.find?_cons_of_neg _ (by simp [hpk]),
          List.find?_cons_of_neg _ (by simp [hpk])]
        exact ih

theorem find?_append_single_other (l : List (ℕ × ℚ)) (i k : ℕ) (v : ℚ)
    (hk : k ≠ i) :
    (l ++ [(i, v)]).find? (fun q => q.1 = k) =
      l.find? (fun q => q.1 = k) := by
  induction l with
  | nil =>
    rw [List.nil_append, List.find?_cons_of_neg _ (by simp [Ne.symm hk])]
  | cons p l ih =>
    rw [List.cons_append]
    by_cases hpk : p.1 = k
    · rw [List.find?_cons_of_pos _ (by simp [hpk]),
        List.find?_cons_of_pos _ (by simp [hpk])]
    · rw [List.find?_cons_of_neg _ (by simp [hpk]),
        List.find?_cons_of_neg _ (by simp [hpk])]
      exact ih

theorem idxLookup_set_other (l : List (ℕ × ℚ)) (i k : ℕ) (v : ℚ)
    (hk : k ≠ i) : idxLookup (idxSet l i v) k = idxLookup l k := by
  unfold idxSet idxLookup
  split_ifs with h
  · rw [find?_map_overwrite l i k v hk]
  · rw [find?_append_single_other l i k v hk]

theorem mem_idxSet {l : List (ℕ × ℚ)} {i : ℕ} {v : ℚ} {p : ℕ × ℚ}
    (hp : p ∈ idxSet l i v) : p = (i, v) ∨ (p ∈ l ∧ p.1 ≠ i) := by
  unfold idxSet at hp
  split_ifs at hp with h
  · obtain ⟨q, hq, hq'⟩ := List.mem_map.mp hp
    by_cases hqi : q.1 = i
    · rw [if_pos hqi] at hq'
      exact Or.inl hq'.symm
    · rw [if_neg hqi] at hq'
      exact Or.inr ⟨hq' ▸ hq, hq' ▸ hqi⟩
  · rcases List.mem_append.mp hp with hp | hp
    · refine Or.inr ⟨hp, ?_⟩
      intro hpi
      exact h (List.find?_isSome.mpr ⟨p, hp, by simp [hpi]⟩)
    · exact Or.inl (by simpa using hp)

/-- The element-level transposition of segment indices realized by one
`swap_segs i j` call. -/
def swapFun (i j s : ℕ) : ℕ :=
  if s = i then j else if s = j then i else s

/-- The permutation of segment indices realized by the driver's whole swap
pass on the extraction list `cs`: each entry of `cs` goes to the entry
mirrored about the middle, anything else stays put. -/
def revFun (cs : List ℕ) (s : ℕ) : ℕ :=
  match (cs.zip cs.reverse).find? (fun p => p.1 = s) with
  | some p => p.2
  | none => s

/-- `swp_lst` of the driver: pair the `ii`-th extracted index with the
`(len−1−ii)`-th (`C_segs[-(ii+1)]`), for `ii` up to half the length; the
source writes the odd-length and even-length cases separately. -/
def swp_lst (cs : List ℕ) : List (ℕ × ℕ) :=
  if cs.length % 2 = 1 then
    (List.range ((cs.length - 1) / 2)).map
      (fun ii => (cs.getD ii 0, cs.getD (cs.length - 1 - ii) 0))
  else
    (List.range (cs.length / 2)).map
      (fun ii => (cs.getD ii 0, cs.getD (cs.length - 1 - ii) 0))

/-- The driver's swap loop `for tup in swp_lst: T_status.swap_segs(*tup)`
(a failing lookup inside a swap raises — `none`). -/
def applySwaps (t : AVLStatusTree) (cs : List ℕ) : Option AVLStatusTree :=
  (swp_lst cs).foldlM (fun s p => s.swap_segs p.1 p.2) t

theorem find?_append_of_none {γ : Type} (l1 l2 : List γ) (p : γ → Bool)
    (h : l1.find? p = none) : (l1 ++ l2).find? p = l2.find? p := by
  induction l1 with
  | nil => rfl
  | cons x l1 ih =>
    rw [List.find?_eq_none] at h
    rw [List.cons_append,
      List.find?_cons_of_neg _ (h x (List.mem_cons_self x l1))]
    exact ih (List.find?_eq_none.mpr
      (fun y hy => h y (List.mem_cons_of_mem x hy)))

theorem find?_append_of_some {γ : Type} {l1 : List γ} (l2 : List γ)
    {p : γ → Bool} {x : γ} (h : l1.find? p = some x) :
    (l1 ++ l2).find? p = some x := by
  induction l1 with
  | nil => simp [List.find?] at h
  | cons y l1 ih =>
    by_cases hy : p y
    · rw [List.find?_cons_of_pos _ hy] at h
      rw [List.cons_append, List.find?_cons_of_pos _ hy]
      exact h
    · rw [List.find?_cons_of_neg _ hy] at h
      rw [List.cons_append, List.find?_cons_of_neg _ hy]
      exact ih h

theorem revFun_not_mem {cs : List ℕ} {s : ℕ} (h : s ∉ cs) :
    revFun cs s = s := by
  unfold revFun
  have hf : (cs.zip cs.reverse).find? (fun p => p.1 = s) = none := by
    rw [List.find?_eq_none]
    intro p hp
    simp only [decide_eq_true_eq]
    intro hps
    exact h (hps ▸ (List.of_mem_zip hp).1)
  rw [hf]

theorem revFun_mem_iff (cs : List ℕ) (s : ℕ) :
    revFun cs s ∈ cs ↔ s ∈ cs := by
  by_cases h : s ∈ cs
  · simp only [h, iff_true]
    unfold revFun
    cases hf : (cs.zip cs.reverse).find? (fun p => p.1 = s) with
    | none => exact h
    | some p =>
      exact List.mem_reverse.mp (List.of_mem_zip (List.mem_of_find?_eq_some hf)).2
  · rw [revFun_not_mem h]

theorem swp_lst_eq (cs : List ℕ) :
    swp_lst cs = (List.range (cs.length / 2)).map
      (fun ii => (cs.getD ii 0, cs.getD (cs.length - 1 - ii) 0)) := by
  unfold swp_lst
  split_ifs with h
  · have h2 : (cs.length - 1) / 2 = cs.length / 2 := by omega
    rw [h2]
  · rfl

theorem swp_lst_short {cs : List ℕ} (h : cs.length ≤ 1) :
    swp_lst cs = [] := by
  rw [swp_lst_eq]
  have h2 : cs.length / 2 = 0 := by omega
  rw [h2, List.range_zero, List.map_nil]

theorem revFun_short {cs : List ℕ} (h : cs.length ≤ 1) (s : ℕ) :
    revFun cs s = s := by
  cases cs with
  | nil => rfl
  | cons a cs1 =>
    cases cs1 with
    | nil =>
      unfold revFun
      by_cases hs : a = s
      · subst hs
        simp [List.find?]
      · simp [List.find?, hs]
    | cons b cs2 => simp at h

theorem swp_lst_peel (a b : ℕ) (mid : List ℕ) :
    swp_lst (a :: (mid ++ [b])) = (a, b) :: swp_lst mid := by
  rw [swp_lst_eq, swp_lst_eq]
  have hlen : (a :: (mid ++ [b])).length = mid.length + 2 := by
    simp [List.length_append]
  rw [hlen]
  have h2 : (mid.length + 2) / 2 = mid.length / 2 + 1 := by omega
  rw [h2, List.range_succ_eq_map, List.map_cons]
  congr 1
  · have h3 : mid.length + 2 - 1 - 0 = mid.length + 1 := by omega
    rw [h3]
    have h4 : (a :: (mid ++ [b])).getD 0 0 = a := rfl
    rw [h4, List.getD_cons_succ]
    have h5 : (mid ++ [b]).getD mid.length 0 = b := by
      rw [List.getD_append_right _ _ _ _ (le_refl _)]
      simp
    rw [h5]
  · rw [List.map_map]
    apply List.map_congr_left
    intro ii hii
    have hii2 : ii < mid.length / 2 := List.mem_range.mp hii
    have hm2 : 2 ≤ mid.length := by omega
    simp only [Function.comp]
    have h6 : (a :: (mid ++ [b])).getD (ii + 1) 0 = mid.getD ii 0 := by
      rw [List.getD_cons_succ, List.getD_append _ _ _ _ (by omega)]
    have h7 : mid.length + 2 - 1 - (ii + 1) = (mid.length - ii - 1) + 1 := by
      omega
    have h8 : (a :: (mid ++ [b])).getD ((mid.length - ii - 1) + 1) 0 =
        mid.getD (mid.length - 1 - ii) 0 := by
      rw [List.getD_cons_succ, List.getD_append _ _ _ _ (by omega)]
      congr 1
      omega
    rw [h6, h7, h8]

theorem revFun_peel {a b : ℕ} {mid : List ℕ} (hab : a ≠ b)
    (hamid : a ∉ mid) (hbmid : b ∉ mid) (s : ℕ) :
    revFun (a :: (mid ++ [b])) s = revFun mid (swapFun a b s) := by
  have hrev : (a :: (mid ++ [b])).reverse = b :: (mid.reverse ++ [a]) := by
    rw [List.reverse_cons, List.reverse_append]
    rfl
  have hzip : (a :: (mid ++ [b])).zip ((a :: (mid ++ [b])).reverse) =
      (a, b) :: ((mid.zip mid.reverse) ++ [(b, a)]) := by
    rw [hrev, List.zip_cons_cons,
      List.zip_append (by rw [List.length_reverse])]
    rfl
  have hmidnone : ∀ u, u ∉ mid →
      (mid.zip mid.reverse).find? (fun p => p.1 = u) = none := by
    intro u hu
    rw [List.find?_eq_none]
    intro p hp
    simp only [decide_eq_true_eq]
    intro hpu
    exact hu (hpu ▸ (List.of_mem_zip hp).1)
  unfold revFun swapFun
  rw [hzip]
  by_cases hsa : s = a
  · subst hsa
    rw [List.find?_cons_of_pos _ (by simp), if_pos rfl]
    rw [hmidnone b hbmid]
  · rw [List.find?_cons_of_neg _ (by simp only [decide_eq_true_eq]; exact Ne.symm hsa), if_neg hsa]
    by_cases hsb : s = b
    · subst hsb
      rw [if_pos rfl,
        find?_append_of_none _ _ _ (hmidnone s hbmid),
        List.find?_cons_of_pos _ (by simp), hmidnone a hamid]
    · rw [if_neg hsb]
      cases hf : (mid.zip mid.reverse).find? (fun p => p.1 = s) with
      | none =>
        rw [find?_append_of_none _ _ _ hf,
          List.find?_cons_of_neg _ (by simp only [decide_eq_true_eq]; exact Ne.symm hsb)]
        rfl
      | some p =>
        rw [find?_append_of_some _ hf]

theorem AVL.keys_setData {α β : Type} [LinearOrder α] {t : AVL α β}
    (hs : AVL.Sorted t) (k : α) (d : β) :
    AVL.keys (AVL.setData t k d) = AVL.keys t := by
  unfold AVL.keys
  rw [AVL.toList_setData hs, List.map_map]
  apply List.map_congr_left
  intro x hx
  by_cases h : x.1 = k
  · simp [Function.comp, h]
  · simp [Function.comp, h]

theorem AVL.sorted_setData {α β : Type} [LinearOrder α] {t : AVL α β}
    (hs : AVL.Sorted t) (k : α) (d : β) :
    AVL.Sorted (AVL.setData t k d) := by
  unfold AVL.Sorted
  rw [AVL.keys_setData hs]
  exact hs

theorem AVL.toList_nodup {α β : Type} [LinearOrder α] {t : AVL α β}
    (hs : AVL.Sorted t) : (AVL.toList t).Nodup := by
  have hk : (AVL.keys t).Nodup := hs.imp (fun h => ne_of_lt h)
  exact hk.of_map Prod.fst

theorem AVLStatusTree.sg_ix_unique {t : AVLStatusTree}
    (hs : AVL.Sorted t.root) (hc : t.Consistent) {e f : ℚ × NodeData}
    (he : e ∈ AVL.toList t.root) (hf : f ∈ AVL.toList t.root)
    (h : e.2.sg_ix = f.2.sg_ix) : e = f := by
  have h1 := hc.1 e he
  have h2 := hc.1 f hf
  rw [h, h2] at h1
  exact AVL.toList_key_unique hs he hf (Option.some_injective _ h1.symm)

theorem AVLStatusTree.statusOrder_nodup {t : AVLStatusTree}
    (hs : AVL.Sorted t.root) (hc : t.Consistent) :
    t.statusOrder.Nodup := by
  unfold AVLStatusTree.statusOrder
  refine List.Nodup.map_on ?_ (AVL.toList_nodup hs)
  intro x hx y hy hxy
  exact AVLStatusTree.sg_ix_unique hs hc hx hy hxy

theorem AVLStatusTree.swap_segs_spec {t : AVLStatusTree} {i j : ℕ}
    (hs : AVL.Sorted t.root) (hc : t.Consistent) (hij : i ≠ j)
    (hi : i ∈ t.statusOrder) (hj : j ∈ t.statusOrder) :
    ∃ t', t.swap_segs i j = some t' ∧
      AVL.keys t'.root = AVL.keys t.root ∧
      t'.statusOrder = t.statusOrder.map (swapFun i j) ∧
      t'.Consistent := by
  unfold AVLStatusTree.statusOrder at hi hj
  obtain ⟨e, he, hei⟩ := List.mem_map.mp hi
  obtain ⟨f, hf, hfj⟩ := List.mem_map.mp hj
  have hlooki : idxLookup t.node_index i = some e.1 := by
    have h1 := hc.1 e he
    rwa [hei] at h1
  have hlookj : idxLookup t.node_index j = some f.1 := by
    have h1 := hc.1 f hf
    rwa [hfj] at h1
  have hef : e ≠ f := fun h => hij (by rw [← hei, ← hfj, h])
  have hef1 : e.1 ≠ f.1 := fun h => hef (AVL.toList_key_unique hs he hf h)
  have hsearch1 : AVL.dfsSearch t.root e.1 = some e :=
    AVL.dfsSearch_found hs he
  have hsearch2 : AVL.dfsSearch t.root f.1 = some f :=
    AVL.dfsSearch_found hs hf
  have hsw : t.swap_segs i j =
      some ⟨AVL.setData (AVL.setData t.root e.1 f.2) f.1 e.2,
        t.nodes_count, idxSet (idxSet t.node_index i f.1) j e.1⟩ := by
    unfold AVLStatusTree.swap_segs
    rw [hlooki, hlookj]
    dsimp only
    rw [hsearch1, hsearch2]
  have hs1 : AVL.Sorted (AVL.setData t.root e.1 f.2) :=
    AVL.sorted_setData hs e.1 f.2
  have hmap : AVL.toList (AVL.setData (AVL.setData t.root e.1 f.2) f.1 e.2) =
      (AVL.toList t.root).map
        (fun x => if x = e then (e.1, f.2) else if x = f then (f.1, e.2)
          else x) := by
    rw [AVL.toList_setData hs1, AVL.toList_setData hs, List.map_map]
    apply List.map_congr_left
    intro x hx
    simp only [Function.comp]
    by_cases h1 : x.1 = e.1
    · have hxe : x = e := AVL.toList_key_unique hs hx he h1
      rw [if_pos h1, if_pos hxe,
        if_neg (show ¬ (((e.1, f.2) : ℚ × NodeData).1 = f.1) from hef1)]
    · have hxe : x ≠ e := fun h => h1 (congrArg Prod.fst h)
      rw [if_neg h1, if_neg hxe]
      by_cases h2 : x.1 = f.1
      · have hxf : x = f := AVL.toList_key_unique hs hx hf h2
        rw [if_pos h2, if_pos hxf]
      · have hxf : x ≠ f := fun h => h2 (congrArg Prod.fst h)
        rw [if_neg h2, if_neg hxf]
  refine ⟨⟨AVL.setData (AVL.setData t.root e.1 f.2) f.1 e.2,
    t.nodes_count, idxSet (idxSet t.node_index i f.1) j e.1⟩, hsw, ?_, ?_, ?_⟩
  · show AVL.keys (AVL.setData (AVL.setData t.root e.1 f.2) f.1 e.2) = _
    rw [AVL.keys_setData hs1, AVL.keys_setData hs]
  · show AVLStatusTree.statusOrder _ = _
    unfold AVLStatusTree.statusOrder
    dsimp only
    rw [hmap, List.map_map, List.map_map]
    apply List.map_congr_left
    intro x hx
    simp only [Function.comp]
    by_cases h1 : x = e
    · subst h1
      rw [if_pos rfl]
      show f.2.sg_ix = swapFun i j x.2.sg_ix
      unfold swapFun
      rw [hei, if_pos rfl]
      exact hfj
    · rw [if_neg h1]
      by_cases h2 : x = f
      · subst h2
        rw [if_pos rfl]
        show e.2.sg_ix = swapFun i j x.2.sg_ix
        unfold swapFun
        rw [hfj, if_neg (Ne.symm hij), if_pos rfl]
        exact hei
      · rw [if_neg h2]
        have hxi : x.2.sg_ix ≠ i := fun h =>
          h1 (AVLStatusTree.sg_ix_unique hs hc hx he (h.trans hei.symm))
        have hxj : x.2.sg_ix ≠ j := fun h =>
          h2 (AVLStatusTree.sg_ix_unique hs hc hx hf (h.trans hfj.symm))
        unfold swapFun
        rw [if_neg hxi, if_neg hxj]
  · constructor
    · intro y hy
      dsimp only at hy ⊢
      rw [hmap] at hy
      obtain ⟨x, hx, hxy⟩ := List.mem_map.mp hy
      by_cases h1 : x = e
      · subst h1
        rw [if_pos rfl] at hxy
        subst hxy
        rw [show ((x.1, f.2) : ℚ × NodeData).2.sg_ix = j from hfj]
        exact idxLookup_set_self _ j x.1
      · rw [if_neg h1] at hxy
        by_cases h2 : x = f
        · subst h2
          rw [if_pos rfl] at hxy
          subst hxy
          rw [show ((x.1, e.2) : ℚ × NodeData).2.sg_ix = i from hei]
          rw [idxLookup_set_other _ j i e.1 hij]
          exact idxLookup_set_self _ i x.1
        · rw [if_neg h2] at hxy
          subst hxy
          have hxi : x.2.sg_ix ≠ i := fun h =>
            h1 (AVLStatusTree.sg_ix_unique hs hc hx he (h.trans hei.symm))
          have hxj : x.2.sg_ix ≠ j := fun h =>
            h2 (AVLStatusTree.sg_ix_unique hs hc hx hf (h.trans hfj.symm))
          rw [idxLookup_set_other _ j _ e.1 hxj,
            idxLookup_set_other _ i _ f.1 hxi]
          exact hc.1 x hx
    · intro p hp
      dsimp only at hp ⊢
      rcases mem_idxSet hp with rfl | ⟨hp1, hpj⟩
      · refine ⟨(e.1, f.2), ?_, rfl, hfj⟩
        rw [hmap]
        refine List.mem_map.mpr ⟨e, he, ?_⟩
        rw [if_pos rfl]
      · rcases mem_idxSet hp1 with rfl | ⟨hp2, hpi⟩
        · refine ⟨(f.1, e.2), ?_, rfl, hei⟩
          rw [hmap]
          refine List.mem_map.mpr ⟨f, hf, ?_⟩
          rw [if_neg (Ne.symm hef), if_pos rfl]
        · obtain ⟨x, hx, hx1, hx2⟩ := hc.2 p hp2
          refine ⟨x, ?_, hx1, hx2⟩
          rw [hmap]
          refine List.mem_map.mpr ⟨x, hx, ?_⟩
          have hxe : x ≠ e := fun h => hpi (by rw [← hx2, h, hei])
          have hxf : x ≠ f := fun h => hpj (by rw [← hx2, h, hfj])
          rw [if_neg hxe, if_neg hxf]

theorem applySwaps_spec (n : ℕ) :
    ∀ (cs : List ℕ) (t : AVLStatusTree), cs.length ≤ n →
      AVL.Sorted t.root → t.Consistent → cs.Nodup →
      (∀ s ∈ cs, s ∈ t.statusOrder) →
      ∃ t', applySwaps t cs = some t' ∧
        AVL.keys t'.root = AVL.keys t.root ∧
        t'.statusOrder = t.statusOrder.map (revFun cs) ∧
        t'.Consistent := by
  induction n with
  | zero =>
    intro cs t hn hs hc hnd hmem
    have hcs : cs = [] := List.eq_nil_of_length_eq_zero (by omega)
    subst hcs
    refine ⟨t, ?_, rfl, ?_, hc⟩
    · rfl
    · have h1 : ∀ s ∈ t.statusOrder, revFun [] s = s :=
        fun s _ => revFun_short (by simp) s
      rw [List.map_congr_left h1]
      simp
  | succ n ih =>
    intro cs t hn hs hc hnd hmem
    by_cases hlen : cs.length ≤ 1
    · refine ⟨t, ?_, rfl, ?_, hc⟩
      · unfold applySwaps
        rw [swp_lst_short hlen]
        rfl
      · have h1 : ∀ s ∈ t.statusOrder, revFun cs s = s :=
          fun s _ => revFun_short hlen s
        rw [List.map_congr_left h1]
        simp
    · obtain ⟨a, cs1, rfl⟩ : ∃ a cs1, cs = a :: cs1 := by
        cases cs with
        | nil => simp at hlen
        | cons a cs1 => exact ⟨a, cs1, rfl⟩
      rcases List.eq_nil_or_concat cs1 with rfl | ⟨mid, b, hcs1⟩
      · simp at hlen
      rw [List.concat_eq_append] at hcs1
      subst hcs1
      obtain ⟨ha1, hnd1⟩ := List.nodup_cons.mp hnd
      obtain ⟨hmidnd, _, hdisj⟩ := List.nodup_append.mp hnd1
      have hamid : a ∉ mid := fun h => ha1 (List.mem_append_left _ h)
      have hab : a ≠ b := fun h =>
        ha1 (List.mem_append_right _ (by simp [h]))
      have hbmid : b ∉ mid := fun h => hdisj h (by simp)
      have ha : a ∈ t.statusOrder := hmem a (List.mem_cons_self _ _)
      have hb : b ∈ t.statusOrder :=
        hmem b (List.mem_cons_of_mem _ (List.mem_append_right _ (by simp)))
      obtain ⟨t1, hswap, hkeys1, hord1, hcons1⟩ :=
        AVLStatusTree.swap_segs_spec hs hc hab ha hb
      have hs1 : AVL.Sorted t1.root := by
        unfold AVL.Sorted at hs ⊢
        rw [hkeys1]
        exact hs
      have hmem1 : ∀ s ∈ mid, s ∈ t1.statusOrder := by
        intro s hsm
        rw [hord1]
        refine List.mem_map.mpr
          ⟨s, hmem s (List.mem_cons_of_mem _ (List.mem_append_left _ hsm)), ?_⟩
        unfold swapFun
        rw [if_neg (fun (h : s = a) => hamid (h ▸ hsm)),
          if_neg (fun (h : s = b) => hbmid (h ▸ hsm))]
      have hlen1 : mid.length ≤ n := by
        have h2 : (a :: (mid ++ [b])).length = mid.length + 2 := by
          simp [List.length_append]
        omega
      obtain ⟨t2, happ, hkeys2, hord2, hcons2⟩ :=
        ih mid t1 hlen1 hs1 hcons1 hmidnd hmem1
      refine ⟨t2, ?_, hkeys2.trans hkeys1, ?_, hcons2⟩
      · unfold applySwaps
        rw [swp_lst_peel, List.foldlM_cons]
        show (t.swap_segs a b).bind _ = some t2
        rw [hswap]
        unfold applySwaps at happ
        exact happ
      · rw [hord2, hord1, List.map_map]
        exact List.map_congr_left
          (fun s _ => (revFun_peel hab hamid hbmid s).symm)

theorem filter_map_comm {γ : Type} (f : γ → γ) (p : γ → Bool) (L : List γ)
    (h : ∀ x ∈ L, p (f x) = p x) :
    (L.map f).filter p = (L.filter p).map f := by
  induction L with
  | nil => rfl
  | cons x L ih =>
    rw [List.map_cons, List.filter_cons, List.filter_cons,
      h x (List.mem_cons_self x L)]
    have ih2 := ih (fun y hy => h y (List.mem_cons_of_mem x hy))
    by_cases hp : p x
    · rw [if_pos hp, if_pos hp, List.map_cons, ih2]
    · rw [if_neg hp, if_neg hp, ih2]

theorem map_revFun_aux (n : ℕ) :
    ∀ cs : List ℕ, cs.length ≤ n → cs.Nodup →
      cs.map (revFun cs) = cs.reverse := by
  induction n with
  | zero =>
    intro cs hn _
    have hcs : cs = [] := List.eq_nil_of_length_eq_zero (by omega)
    subst hcs
    rfl
  | succ n ih =>
    intro cs hn hnd
    by_cases hlen : cs.length ≤ 1
    · have h1 : ∀ s ∈ cs, revFun cs s = s := fun s _ => revFun_short hlen s
      rw [List.map_congr_left h1]
      cases cs with
      | nil => rfl
      | cons a cs1 =>
        cases cs1 with
        | nil => simp
        | cons b cs2 => simp at hlen
    · obtain ⟨a, cs1, rfl⟩ : ∃ a cs1, cs = a :: cs1 := by
        cases cs with
        | nil => simp at hlen
        | cons a cs1 => exact ⟨a, cs1, rfl⟩
      rcases List.eq_nil_or_concat cs1 with rfl | ⟨mid, b, hcs1⟩
      · simp at hlen
      rw [List.concat_eq_append] at hcs1
      subst hcs1
      obtain ⟨ha1, hnd1⟩ := List.nodup_cons.mp hnd
      obtain ⟨hmidnd, _, hdisj⟩ := List.nodup_append.mp hnd1
      have hamid : a ∉ mid := fun h => ha1 (List.mem_append_left _ h)
      have hab : a ≠ b := fun h =>
        ha1 (List.mem_append_right _ (by simp [h]))
      have hbmid : b ∉ mid := fun h => hdisj h (by simp)
      have hpeel : ∀ s, revFun (a :: (mid ++ [b])) s =
          revFun mid (swapFun a b s) := revFun_peel hab hamid hbmid
      rw [List.map_cons, List.map_append]
      rw [hpeel a]
      have hsa : swapFun a b a = b := by
        unfold swapFun
        rw [if_pos rfl]
      rw [hsa, revFun_not_mem hbmid]
      have hmid : mid.map (revFun (a :: (mid ++ [b]))) =
          mid.map (revFun mid) := by
        apply List.map_congr_left
        intro s hsm
        rw [hpeel s]
        unfold swapFun
        rw [if_neg (fun (h : s = a) => hamid (h ▸ hsm)),
          if_neg (fun (h : s = b) => hbmid (h ▸ hsm))]
      rw [hmid, ih mid (by simp [List.length_append] at hn; omega) hmidnd]
      have hrb : ([b].map (revFun (a :: (mid ++ [b])))) = [a] := by
        rw [List.map_singleton, hpeel b]
        have hsb : swapFun a b b = a := by
          unfold swapFun
          rw [if_neg (Ne.symm hab), if_pos rfl]
        rw [hsb, revFun_not_mem hamid]
      rw [hrb]
      rw [List.reverse_cons, List.reverse_append]
      rfl

def c4seg0 : Segment := Segment.make ⟨0, 0⟩ ⟨1, 0⟩

def c4seg1 : Segment := Segment.make ⟨0, 1⟩ ⟨1, 1⟩

def c4seg2 : Segment := Segment.make ⟨0, 2⟩ ⟨1, 2⟩

/-- Status tree holding segments 0, 1, 2 bottom-to-top: status order
[0, 1, 2]. -/
def c4tree : AVLStatusTree :=
  (((AVLStatusTree.empty.insert ⟨0, c4seg0⟩).2.insert
    ⟨1, c4seg1⟩).2.insert ⟨2, c4seg2⟩).2

/-- C4 (amended): the driver's pairwise swap pass
`(C[0], C[-1]), (C[1], C[-2]), …` reverses the relative order of the `C`
segments within the status exactly when the extraction list `cs` lists
`C`'s indices in their current status order — not "regardless of the
iteration order in which they were extracted from the event's set".  Under
that hypothesis every swap succeeds, the tree's keys are untouched, the
index dictionary stays consistent, and the status order restricted to `C`
is exactly reversed. -/
theorem C4_swap_pass_reverses_status_order_extraction
    {t : AVLStatusTree} {cs : List ℕ}
    (hs : AVL.Sorted t.root) (hc : t.Consistent)
    (hcs : cs = t.statusOrder.filter (fun s => s ∈ cs)) :
    ∃ t', applySwaps t cs = some t' ∧
      AVL.keys t'.root = AVL.keys t.root ∧
      t'.statusOrder.filter (fun s => s ∈ cs) =
        (t.statusOrder.filter (fun s => s ∈ cs)).reverse ∧
      t'.Consistent := by
  have hnd : cs.Nodup := by
    rw [hcs]
    exact (AVLStatusTree.statusOrder_nodup hs hc).filter _
  have hsub : ∀ s ∈ cs, s ∈ t.statusOrder := by
    intro s hsm
    rw [hcs] at hsm
    exact List.mem_of_mem_filter hsm
  obtain ⟨t', happ, hkeys, hord, hcons⟩ :=
    applySwaps_spec cs.length cs t (le_refl _) hs hc hnd hsub
  refine ⟨t', happ, hkeys, ?_, hcons⟩
  rw [hord]
  rw [filter_map_comm _ _ _ (fun s _ => by
    simp only [decide_eq_decide]
    exact revFun_mem_iff cs s)]
  rw [← hcs, map_revFun_aux cs.length cs (le_refl _) hnd]

theorem C4_witness :
    AVL.Sorted c4tree.root ∧ c4tree.Consistent ∧
      ([0, 1, 2] : List ℕ) =
        c4tree.statusOrder.filter (fun s => s ∈ ([0, 1, 2] : List ℕ)) ∧
      ∃ t', applySwaps c4tree [0, 1, 2] = some t' ∧
        AVL.keys t'.root = AVL.keys c4tree.root ∧
        t'.statusOrder.filter (fun s => s ∈ ([0, 1, 2] : List ℕ)) =
          (c4tree.statusOrder.filter
            (fun s => s ∈ ([0, 1, 2] : List ℕ))).reverse ∧
        t'.Consistent :=
  ⟨by decide, by decide, by decide,
    C4_swap_pass_reverses_status_order_extraction (by decide) (by decide)
      (by decide)⟩

/-- C4 (counterexample to the original claim): with status order
[0, 1, 2], the extraction order [1, 0, 2] — a permutation of the same `C`
set, so a possible iteration order of the event's Python set — makes the
driver swap segments 1 and 2 only, leaving status order [0, 2, 1], not the
reversal [2, 1, 0]. -/
theorem C4_counterexample :
    c4tree.statusOrder = [0, 1, 2] ∧
      List.Perm [1, 0, 2] [0, 1, 2] ∧
      swp_lst [1, 0, 2] = [(1, 2)] ∧
      (applySwaps c4tree [1, 0, 2]).map AVLStatusTree.statusOrder =
        some [0, 2, 1] ∧
      ([0, 2, 1] : List ℕ) ≠ ([0, 1, 2] : List ℕ).reverse := by
  decide

end SweepLine
